import Mathlib

/-!
Verification of the block buffer cache in src/kernel/bio.c.

The cache is embedded shallowly and sequentially: spinlocks (bucket locks,
the master lock) are short critical sections that only order interleavings,
so in the sequential embedding each public operation is an atomic state
transformer; the per-buffer sleep lock is modelled as a boolean `lockHeld`
(held by the single implicit caller); `panic` is modelled as a fatal
outcome; the disk driver `virtio_disk_rw` is an external collaborator,
modelled as an emitted transfer event (plus, for transfer-in, installing
payload bytes supplied by a `disk` oracle).

The concurrency claim about lock ordering is settled separately on a
lock-skeleton model of `bget`'s miss path (`bgetLocks` below), with an
explicit interleaving semantics of lock acquisition and release.
-/

/-- Number of hash buckets (`#define NBUCKET 13` in bio.c). -/
def NBUCKET : Nat := 13

/-- The hash function `HASH(x) = x % NBUCKET` from bio.c. -/
def HASH (x : Nat) : Nat := x % NBUCKET

/-- One buffer slot (`struct buf`): identity `(dev, blockno)`, the `valid`
flag, the reference count `refcnt` (an Int, so that unmatched decrements
are visible), the sleep lock state (`lockHeld` true when the implicit
caller holds `b->lock`), and the payload bytes `data`.  The intrusive
`prev`/`next` pointers are represented by membership in the bucket lists
of `BCache.buckets`. -/
structure Buf where
  dev : Nat
  blockno : Nat
  valid : Bool
  refcnt : Int
  lockHeld : Bool
  data : List Nat
deriving DecidableEq, Inhabited

/-- The cache (`struct bcache`): the fixed slot pool `bufs` in array index
order, and the 13 bucket lists, each a list of slot indices; the head of a
list is `head[b].next` in the C code. -/
structure BCache where
  bufs : List Buf
  buckets : List (List Nat)
deriving DecidableEq

/-- Slot `i` of the pool (out-of-range reads give the default slot). -/
def slotOf (s : BCache) (i : Nat) : Buf := s.bufs.getD i default

/-- Bucket `b`'s membership list. -/
def bucketOf (s : BCache) (b : Nat) : List Nat := s.buckets.getD b []

/-- Replace slot `i` of the pool. -/
def setSlot (s : BCache) (i : Nat) (x : Buf) : BCache :=
  { s with bufs := s.bufs.set i x }

/-- Replace bucket `b`'s list. -/
def setBucket (s : BCache) (b : Nat) (l : List Nat) : BCache :=
  { s with buckets := s.buckets.set b l }

/-- The list `[n-1, n-2, ..., 0]`: the order of bucket 0 after `binit`
pushed each of the `n` slots onto the front of the list. -/
def descList : Nat → List Nat
  | 0 => []
  | n + 1 => n :: descList n

/-- `binit` for a pool of `n` slots: all slots zero-initialized (global C
objects), every slot linked into bucket 0's list, each pushed at the
front, all other bucket lists empty. -/
def binit (n : Nat) : BCache :=
  { bufs := List.replicate n ⟨0, 0, false, 0, false, []⟩,
    buckets := descList n :: List.replicate (NBUCKET - 1) [] }

/-- The hit-scan test `b->dev == dev && b->blockno == blockno`. -/
def bmatch (dev blockno : Nat) (x : Buf) : Bool :=
  x.dev == dev && x.blockno == blockno

/-- First element of a list satisfying `p`, in list order. -/
def findFirst (p : Nat → Bool) : List Nat → Option Nat
  | [] => none
  | x :: l => if p x then some x else findFirst p l

/-- The hit scan of `bget`: walk bucket `h`'s list from the head looking
for a slot matching `(dev, blockno)`. -/
def findMatch (s : BCache) (h dev blockno : Nat) : Option Nat :=
  findFirst (fun i => bmatch dev blockno (slotOf s i)) (bucketOf s h)

/-- Index of the first buffer with `refcnt == 0`, scanning the pool in
array index order (the eviction scan of `bget`). -/
def findFreeIdx : List Buf → Option Nat
  | [] => none
  | x :: l => if x.refcnt == 0 then some 0 else (findFreeIdx l).map (fun k => k + 1)

/-- First free slot of the pool, in array index order. -/
def firstFree (s : BCache) : Option Nat := findFreeIdx s.bufs

/-- Increment slot `i`'s `refcnt` (the `b->refcnt++` of the hit path; also
the body of `bpin`). -/
def bumpRef (s : BCache) (i : Nat) : BCache :=
  setSlot s i { slotOf s i with refcnt := (slotOf s i).refcnt + 1 }

/-- Claim slot `j` for identity `(dev, blockno)`:
`b->dev = dev; b->blockno = blockno; b->valid = 0; b->refcnt = 1`. -/
def claimSlot (s : BCache) (j dev blockno : Nat) : BCache :=
  setSlot s j { slotOf s j with dev := dev, blockno := blockno, valid := false, refcnt := 1 }

/-- Remove the first occurrence of `i` from a list (the doubly-linked-list
unlink `b->prev->next = b->next; b->next->prev = b->prev`). -/
def rmFirst (i : Nat) : List Nat → List Nat
  | [] => []
  | x :: l => if x = i then l else x :: rmFirst i l

/-- Cross-bucket steal relink: unlink slot `j` from the list containing it
and push it at the front of bucket `h`'s list. -/
def stealRelink (s : BCache) (j h : Nat) : BCache :=
  let s1 : BCache := { s with buckets := s.buckets.map (rmFirst j) }
  setBucket s1 h (j :: bucketOf s1 h)

/-- Fatal diagnostics of the cache (`panic` messages in bio.c). -/
inductive PMsg where
  /-- the diagnostic of `panic("bget: no buffers")` -/
  | noBuffers
deriving DecidableEq

/-- Disk-transfer events (`virtio_disk_rw(b, 0)` and `virtio_disk_rw(b, 1)`). -/
inductive Ev where
  | transferIn (i : Nat)
  | transferOut (i : Nat)
deriving DecidableEq

/-- Outcome of `bget`/`bread`: a locked slot handle (new state, returned
slot index, emitted transfer events), or the caller blocks forever on
`acquiresleep` (impossible for a disciplined single caller), or a fatal
`panic`. -/
inductive Outcome where
  | ok (s : BCache) (i : Nat) (evs : List Ev)
  | blocked
  | fatal (m : PMsg)
deriving DecidableEq

/-- `acquiresleep(&b->lock)` on slot `j`, then return the handle: blocks if
the lock is already held, otherwise takes it. -/
def acquireSleep (s : BCache) (j : Nat) : Outcome :=
  if (slotOf s j).lockHeld then Outcome.blocked
  else Outcome.ok (setSlot s j { slotOf s j with lockHeld := true }) j []

/-- `bget(dev, blockno)`: hit scan of the home bucket; on a miss, scan the
pool in array index order for a `refcnt == 0` slot, claiming it in place
when its current bucket is already the home bucket and stealing it (unlink
plus front insertion into the home bucket) otherwise; `panic` when no free
slot exists. -/
def bget (s : BCache) (dev blockno : Nat) : Outcome :=
  match findMatch s (HASH blockno) dev blockno with
  | some i => acquireSleep (bumpRef s i) i
  | none =>
    match firstFree s with
    | some j =>
      if HASH (slotOf s j).blockno = HASH blockno
      then acquireSleep (claimSlot s j dev blockno) j
      else acquireSleep (stealRelink (claimSlot s j dev blockno) j (HASH blockno)) j
    | none => Outcome.fatal PMsg.noBuffers

/-- `bread(dev, blockno)`: `bget`, then if the slot is not valid, transfer
the block in (`virtio_disk_rw(b, 0)`, installing the payload supplied by
the `disk` oracle) and set `valid`. -/
def bread (disk : Nat → Nat → List Nat) (s : BCache) (dev blockno : Nat) : Outcome :=
  match bget s dev blockno with
  | Outcome.ok s1 i _ =>
    if (slotOf s1 i).valid then Outcome.ok s1 i []
    else Outcome.ok
      (setSlot s1 i { slotOf s1 i with valid := true, data := disk dev blockno })
      i [Ev.transferIn i]
  | o => o

/-- `bwrite(b)`: `panic("bwrite")` (modelled as `none`) unless the caller
holds the sleep lock; otherwise transfer the block out.  The cache state
is returned unchanged. -/
def bwrite (s : BCache) (i : Nat) : Option (BCache × List Ev) :=
  if (slotOf s i).lockHeld then some (s, [Ev.transferOut i]) else none

/-- `brelse(b)`: `panic("brelse")` (modelled as `none`) unless the caller
holds the sleep lock; otherwise release the sleep lock and decrement
`refcnt` under the slot's bucket lock. -/
def brelse (s : BCache) (i : Nat) : Option BCache :=
  if (slotOf s i).lockHeld then
    some (setSlot s i
      { slotOf s i with lockHeld := false, refcnt := (slotOf s i).refcnt - 1 })
  else none

/-- `bpin(b)`: increment `refcnt` under the slot's bucket lock. -/
def bpin (s : BCache) (i : Nat) : BCache := bumpRef s i

/-- `bunpin(b)`: decrement `refcnt` under the slot's bucket lock. -/
def bunpin (s : BCache) (i : Nat) : BCache :=
  setSlot s i { slotOf s i with refcnt := (slotOf s i).refcnt - 1 }

/-- Number of occurrences of `i` in a list of slot indices. -/
def cnt (i : Nat) : List Nat → Nat
  | [] => 0
  | x :: l => (if x = i then 1 else 0) + cnt i l

/-- Bucket membership is consistent: the bucket lists have the fixed
bucket count, and every slot index occurs exactly once across all bucket
lists, namely in bucket `HASH(blockno)` of its current key. -/
def bucketConsistent (s : BCache) : Prop :=
  s.buckets.length = NBUCKET ∧
  ∀ i, i < s.bufs.length → ∀ b, b < NBUCKET →
    cnt i (bucketOf s b) = if b = HASH (slotOf s i).blockno then 1 else 0

/-- Every index stored in a bucket list is a real pool index. -/
def bucketsWF (s : BCache) : Prop :=
  ∀ b, b < NBUCKET → ∀ i, i ∈ bucketOf s b → i < s.bufs.length

/-- Every valid slot is the first slot matching its own key in its home
bucket's list (so the hit scan finds exactly it). -/
def validFirstMatch (s : BCache) : Prop :=
  ∀ i, i < s.bufs.length → (slotOf s i).valid = true →
    findMatch s (HASH (slotOf s i).blockno) (slotOf s i).dev (slotOf s i).blockno = some i

/-- At most one slot of the pool is valid for a given `(dev, blockno)`
identity. -/
def uniqueValidKey (s : BCache) : Prop :=
  ∀ i, i < s.bufs.length → ∀ j, j < s.bufs.length →
    (slotOf s i).valid = true → (slotOf s j).valid = true →
    (slotOf s i).dev = (slotOf s j).dev → (slotOf s i).blockno = (slotOf s j).blockno →
    i = j

/-- The structural invariant of the cache. -/
def CacheInv (s : BCache) : Prop :=
  bucketConsistent s ∧ bucketsWF s ∧ validFirstMatch s

instance (s : BCache) : Decidable (bucketConsistent s) := by
  unfold bucketConsistent
  infer_instance

instance (s : BCache) : Decidable (bucketsWF s) := by
  unfold bucketsWF
  infer_instance

instance (s : BCache) : Decidable (validFirstMatch s) := by
  unfold validFirstMatch
  infer_instance

instance (s : BCache) : Decidable (uniqueValidKey s) := by
  unfold uniqueValidKey
  exact Nat.decidableBallLT _ _

instance (s : BCache) : Decidable (CacheInv s) := by
  unfold CacheInv
  infer_instance

/-- What a successful `bget` guarantees: the invariant is preserved, the
returned slot is a real pool index carrying the requested identity with the
sleep lock freshly taken and `refcnt` bumped by one, it is what the hit
scan now finds for that key, and no other slot changed. -/
def BgetPost (s : BCache) (dev blk : Nat) (s2 : BCache) (j : Nat) : Prop :=
  CacheInv s2 ∧ j < s.bufs.length ∧ s2.bufs.length = s.bufs.length ∧
  s2.buckets.length = s.buckets.length ∧
  (slotOf s2 j).dev = dev ∧ (slotOf s2 j).blockno = blk ∧
  findMatch s2 (HASH blk) dev blk = some j ∧
  (slotOf s j).lockHeld = false ∧ (slotOf s2 j).lockHeld = true ∧
  (slotOf s2 j).refcnt = (slotOf s j).refcnt + 1 ∧
  (slotOf s2 j).data = (slotOf s j).data ∧
  (∀ k, k ≠ j → slotOf s2 k = slotOf s k)

/-- States reachable from initialization by completed public operations
(any pool size, any disk contents, any arguments). -/
inductive Reach : BCache → Prop where
  | init (n : Nat) : Reach (binit n)
  | read (disk : Nat → Nat → List Nat) (s s' : BCache) (dev blk i : Nat) (evs : List Ev) :
      Reach s → bread disk s dev blk = Outcome.ok s' i evs → Reach s'
  | write (s s' : BCache) (i : Nat) (evs : List Ev) :
      Reach s → bwrite s i = some (s', evs) → Reach s'
  | release (s s' : BCache) (i : Nat) :
      Reach s → brelse s i = some s' → Reach s'
  | pin (s : BCache) (i : Nat) : Reach s → Reach (bpin s i)
  | unpin (s : BCache) (i : Nat) : Reach s → Reach (bunpin s i)

/-- Public operations of a caller trace (`release`, `pin`, `unpin` name the
slot handle they act on). -/
inductive Op where
  | read (dev blk : Nat)
  | release (i : Nat)
  | pin (i : Nat)
  | unpin (i : Nat)
deriving DecidableEq

/-- One trace step, instrumented with two ghost ledgers: `led i` counts the
currently unreleased reads that returned slot `i`, `pled i` the unmatched
pins of slot `i`.  A step fails (`none`) when the operation panics or the
single caller would block forever. -/
def traceStep (disk : Nat → Nat → List Nat) :
    BCache × List Int × List Int → Op → Option (BCache × List Int × List Int)
  | (s, led, pled), Op.read dev blk =>
    match bread disk s dev blk with
    | Outcome.ok s' i _ => some (s', led.set i (led.getD i 0 + 1), pled)
    | _ => none
  | (s, led, pled), Op.release i =>
    if i < s.bufs.length then
      match brelse s i with
      | some s' => some (s', led.set i (led.getD i 0 - 1), pled)
      | none => none
    else none
  | (s, led, pled), Op.pin i =>
    if i < s.bufs.length then some (bpin s i, led, pled.set i (pled.getD i 0 + 1))
    else none
  | (s, led, pled), Op.unpin i =>
    if i < s.bufs.length then some (bunpin s i, led, pled.set i (pled.getD i 0 - 1))
    else none

/-- Run a trace from a given instrumented state. -/
def runTraceAux (disk : Nat → Nat → List Nat) :
    BCache × List Int × List Int → List Op → Option (BCache × List Int × List Int)
  | st, [] => some st
  | st, op :: rest =>
    match traceStep disk st op with
    | some st' => runTraceAux disk st' rest
    | none => none

/-- Run a trace from the freshly initialized cache of `n` slots. -/
def runTrace (disk : Nat → Nat → List Nat) (n : Nat) (t : List Op) :
    Option (BCache × List Int × List Int) :=
  runTraceAux disk (binit n, List.replicate n 0, List.replicate n 0) t

/-- Signed count update of pins/unpins of slot `i` by one operation. -/
def pinStep (i : Nat) (acc : Int) : Op → Int
  | Op.pin j => if j = i then acc + 1 else acc
  | Op.unpin j => if j = i then acc - 1 else acc
  | _ => acc

/-- Pins minus unpins of slot `i` in a trace. -/
def pinCount (t : List Op) (i : Nat) : Int := t.foldl (pinStep i) 0

/-- All leading segments of a trace (from `[]` up to the trace itself). -/
def pres : List Op → List (List Op)
  | [] => [[]]
  | x :: l => [] :: (pres l).map (fun p => x :: p)

/-- A concrete disk oracle for witnesses. -/
def diskZero : Nat → Nat → List Nat := fun _ _ => []

/-- Returned slot index of an outcome, when it is a hit/claim. -/
def retIdx : Outcome → Option Nat
  | Outcome.ok _ i _ => some i
  | _ => none

/-- Resulting cache state of an outcome, when it is a hit/claim. -/
def retState : Outcome → Option BCache
  | Outcome.ok s _ _ => some s
  | _ => none

/-- A cache whose single slot is busy: identity `(0,0)`, `refcnt = 1`. -/
def exhaustS : BCache :=
  { bufs := [⟨0, 0, false, 1, false, []⟩],
    buckets := [0] :: List.replicate (NBUCKET - 1) [] }

/-- A cache whose single slot is held by the caller (sleep lock taken). -/
def heldS : BCache :=
  { bufs := [⟨0, 0, true, 1, true, []⟩],
    buckets := [0] :: List.replicate (NBUCKET - 1) [] }

/-- The state reached from `binit 1` by the trace `read 0 0; pin 0`. -/
def c8S : BCache :=
  { bufs := [⟨0, 0, true, 2, true, []⟩],
    buckets := [0] :: List.replicate (NBUCKET - 1) [] }

/-- The state reached from `binit 2` by `bget 0 1` (a miss stealing slot 0
from bucket 0 into home bucket 1). -/
def c7S2 : BCache :=
  { bufs := [⟨0, 1, false, 1, true, []⟩, ⟨0, 0, false, 0, false, []⟩],
    buckets := [[1], [0], [], [], [], [], [], [], [], [], [], [], []] }

/-- Identifiers of the structural spinlocks: the 13 bucket locks
(`bcache.lock[b]`) and the global eviction lock (`bcache.master`). -/
inductive LockId where
  | bucket (b : Nat)
  | master
deriving DecidableEq

/-- A lock action: acquire or release a structural lock. -/
inductive LAct where
  | acq (l : LockId)
  | rel (l : LockId)
deriving DecidableEq

/-- The lock skeleton of `bget`'s miss path with home bucket `h`, when the
free slot it claims lives in donor bucket `g` (`g ≠ h`), exactly in the
order of bio.c: acquire `lock[h]` (function entry), acquire `master` (miss),
acquire `lock[g]` (steal), then release `lock[g]`, `lock[h]`, `master`. -/
def bgetLocks (h g : Nat) : List LAct :=
  [LAct.acq (LockId.bucket h), LAct.acq LockId.master, LAct.acq (LockId.bucket g),
   LAct.rel (LockId.bucket g), LAct.rel (LockId.bucket h), LAct.rel LockId.master]

/-- A configuration of concurrently executing lock programs: per-thread
remaining actions, and the set of held locks with their owner thread. -/
structure LConf where
  progs : List (List LAct)
  held : List (LockId × Nat)
deriving DecidableEq

/-- Whether lock `l` is currently free. -/
def lockFree (c : LConf) (l : LockId) : Bool :=
  c.held.all (fun e => !(e.1 == l))

/-- Try to execute thread `t`'s next lock action: an acquire succeeds only
when the lock is free (a spinlock acquire otherwise spins, i.e. the thread
cannot step); a release succeeds when the thread holds the lock. -/
def stepThread (c : LConf) (t : Nat) : Option LConf :=
  match c.progs.getD t [] with
  | [] => none
  | act :: rest =>
    match act with
    | LAct.acq l =>
      if lockFree c l
      then some ⟨c.progs.set t rest, (l, t) :: c.held⟩
      else none
    | LAct.rel l =>
      if (l, t) ∈ c.held
      then some ⟨c.progs.set t rest, c.held.filter (fun e => !(e == (l, t)))⟩
      else none

/-- All configurations reachable in one step (one thread acting). -/
def succs (c : LConf) : List LConf :=
  (List.range c.progs.length).filterMap (stepThread c)

/-- Execute a schedule: at each step the named thread acts. -/
def stepsTo (c : LConf) : List Nat → Option LConf
  | [] => some c
  | t :: rest =>
    match stepThread c t with
    | some c' => stepsTo c' rest
    | none => none

/-- All threads have finished their programs. -/
def lfinished (c : LConf) : Bool := c.progs.all (fun p => p.isEmpty)

/-- No thread can take a step. -/
def lstuck (c : LConf) : Bool := (succs c).isEmpty

/-- Accumulate the set of configurations reachable from `acc` by breadth
first search with the given fuel. -/
def reachAux : Nat → List LConf → List LConf
  | 0, acc => acc
  | fuel + 1, acc =>
    let next := ((acc.map succs).flatten.filter (fun c => !(acc.contains c))).dedup
    if next.isEmpty then acc else reachAux fuel (acc ++ next)

/-- Configurations reachable from `c0` (fuel large enough for the bounded
programs used here). -/
def reachSet (c0 : LConf) : List LConf := reachAux 16 [c0]

/-- Two concurrent misses with the same home bucket 0, each stealing from
a distinct donor bucket. -/
def sameHomeConf : LConf := ⟨[bgetLocks 0 1, bgetLocks 0 2], []⟩

/-- Two concurrent misses with distinct home buckets, the second stealing
from the first one's home bucket. -/
def crossConf : LConf := ⟨[bgetLocks 0 2, bgetLocks 1 0], []⟩

/-- The configuration reached from `crossConf` by the schedule `[0, 1, 1]`:
thread 0 holds `lock[0]` and waits for `master`; thread 1 holds `lock[1]`
and `master` and waits for `lock[0]`. -/
def deadConf : LConf :=
  ⟨[[LAct.acq LockId.master, LAct.acq (LockId.bucket 2), LAct.rel (LockId.bucket 2),
     LAct.rel (LockId.bucket 0), LAct.rel LockId.master],
    [LAct.acq (LockId.bucket 0), LAct.rel (LockId.bucket 0), LAct.rel (LockId.bucket 1),
     LAct.rel LockId.master]],
   [(LockId.master, 1), (LockId.bucket 1, 1), (LockId.bucket 0, 0)]⟩

/-- The configuration in which both threads of `sameHomeConf` have run to
completion. -/
def doneConf : LConf := ⟨[[], []], []⟩

theorem lgetD_set_self {α : Type} (l : List α) (i : Nat) (x d : α) (h : i < l.length) :
    (l.set i x).getD i d = x := by
  rw [List.getD_eq_getD_get?, List.get?_eq_getElem?, List.getElem?_set_eq_of_lt x h]
  rfl

theorem lgetD_set_ne {α : Type} (l : List α) (i j : Nat) (x d : α) (h : i ≠ j) :
    (l.set i x).getD j d = l.getD j d := by
  rw [List.getD_eq_getD_get?, List.getD_eq_getD_get?, List.get?_eq_getElem?,
    List.get?_eq_getElem?, List.getElem?_set_ne h]

theorem lgetD_replicate {α : Type} (n i : Nat) (a d : α) :
    (List.replicate n a).getD i d = if i < n then a else d := by
  induction n generalizing i with
  | zero => simp [List.getD]
  | succ m ih =>
    cases i with
    | zero => simp [List.replicate_succ]
    | succ k =>
      simp only [List.replicate_succ, List.getD_cons_succ, ih, Nat.succ_lt_succ_iff]

theorem length_descList (n : Nat) : (descList n).length = n := by
  induction n with
  | zero => rfl
  | succ m ih => simp [descList, ih]

theorem mem_descList (n i : Nat) : i ∈ descList n ↔ i < n := by
  induction n with
  | zero => simp [descList]
  | succ m ih => simp [descList, ih]; omega

theorem cnt_eq_zero (i : Nat) (l : List Nat) : cnt i l = 0 ↔ i ∉ l := by
  induction l with
  | nil => simp [cnt]
  | cons x t ih =>
    simp only [cnt, List.mem_cons]
    constructor
    · intro h
      have hx : ¬ x = i := by
        intro hxi
        simp [hxi] at h
      simp [hx] at h
      intro hc
      rcases hc with hc | hc
      · exact hx hc.symm
      · exact (ih.mp h) hc
    · intro h
      have hx : ¬ x = i := fun hxi => h (Or.inl hxi.symm)
      have ht : i ∉ t := fun hm => h (Or.inr hm)
      simp [hx, ih.mpr ht]

theorem cnt_descList (n i : Nat) : cnt i (descList n) = if i < n then 1 else 0 := by
  induction n with
  | zero => simp [descList, cnt]
  | succ m ih =>
    simp only [descList, cnt, ih]
    by_cases h : m = i
    · subst h
      simp [Nat.lt_succ_self, Nat.lt_irrefl]
    · simp only [h, if_false]
      by_cases h2 : i < m
      · rw [if_pos h2, if_pos (Nat.lt_succ_of_lt h2)]
      · rw [if_neg h2, if_neg (by omega)]

theorem cnt_rmFirst_self (j : Nat) (l : List Nat) : cnt j (rmFirst j l) = cnt j l - 1 := by
  induction l with
  | nil => simp [rmFirst, cnt]
  | cons x t ih =>
    by_cases h : x = j
    · subst h
      simp [rmFirst, cnt]
    · simp [rmFirst, h, cnt, ih]

theorem cnt_rmFirst_ne (i j : Nat) (l : List Nat) (h : i ≠ j) :
    cnt i (rmFirst j l) = cnt i l := by
  induction l with
  | nil => simp [rmFirst]
  | cons x t ih =>
    by_cases hx : x = j
    · have hxi : ¬ x = i := fun hc => h (hc ▸ hx)
      have hji : ¬ j = i := hx ▸ hxi
      simp [rmFirst, hx, cnt, hxi, hji]
    · simp [rmFirst, hx, cnt, ih]

theorem mem_rmFirst (x j : Nat) (l : List Nat) (h : x ∈ rmFirst j l) : x ∈ l := by
  induction l with
  | nil => simp [rmFirst] at h
  | cons a t ih =>
    by_cases ha : a = j
    · subst ha
      simp [rmFirst] at h
      exact List.mem_cons_of_mem _ h
    · simp [rmFirst, ha, List.mem_cons] at h
      rcases h with h | h
      · exact h ▸ List.mem_cons_self _ _
      · exact List.mem_cons_of_mem _ (ih h)

theorem rmFirst_of_not_mem (j : Nat) (l : List Nat) (h : j ∉ l) : rmFirst j l = l := by
  induction l with
  | nil => rfl
  | cons x t ih =>
    have hx : ¬ x = j := fun hc => h (hc ▸ List.mem_cons_self _ _)
    have ht : j ∉ t := fun hm => h (List.mem_cons_of_mem _ hm)
    simp [rmFirst, hx, ih ht]

theorem cnt_cons (i x : Nat) (l : List Nat) :
    cnt i (x :: l) = (if x = i then 1 else 0) + cnt i l := rfl

theorem findFirst_eq_none (p : Nat → Bool) (l : List Nat) :
    findFirst p l = none ↔ ∀ x ∈ l, p x = false := by
  induction l with
  | nil => simp [findFirst]
  | cons x t ih =>
    by_cases hx : p x = true
    · simp [findFirst, hx]
    · have hx2 : p x = false := by
        cases hpx : p x
        · rfl
        · exact absurd hpx hx
      simp [findFirst, hx2, ih]

theorem findFirst_mem (p : Nat → Bool) (l : List Nat) (v : Nat)
    (h : findFirst p l = some v) : v ∈ l ∧ p v = true := by
  induction l with
  | nil => simp [findFirst] at h
  | cons x t ih =>
    by_cases hx : p x = true
    · simp only [findFirst, hx, if_true, Option.some.injEq] at h
      subst h
      exact ⟨List.mem_cons_self _ _, hx⟩
    · simp only [findFirst, hx, if_false] at h
      rcases ih h with ⟨hm, hp⟩
      exact ⟨List.mem_cons_of_mem _ hm, hp⟩

theorem findFirst_congr (p q : Nat → Bool) (l : List Nat) (h : ∀ x ∈ l, p x = q x) :
    findFirst p l = findFirst q l := by
  induction l with
  | nil => rfl
  | cons x t ih =>
    have hx : p x = q x := h x (List.mem_cons_self _ _)
    have ht : ∀ x ∈ t, p x = q x := fun y hy => h y (List.mem_cons_of_mem _ hy)
    simp [findFirst, hx, ih ht]

theorem findFirst_upd (l : List Nat) (p q : Nat → Bool) (i v : Nat)
    (hf : findFirst p l = some v) (hvi : v ≠ i)
    (hq : ∀ x, x ≠ i → q x = p x) (hqi : q i = false) :
    findFirst q l = some v := by
  induction l with
  | nil => simp [findFirst] at hf
  | cons x t ih =>
    by_cases hx : p x = true
    · simp only [findFirst, hx, if_true, Option.some.injEq] at hf
      have hqv : q x = true := by
        rw [hq x (hf ▸ hvi)]
        exact hx
      subst hf
      simp [findFirst, hqv]
    · simp only [findFirst, hx, if_false] at hf
      have hqx : q x = false := by
        by_cases hxi : x = i
        · exact hxi ▸ hqi
        · rw [hq x hxi]
          cases hpx : p x
          · rfl
          · exact absurd hpx hx
      simp [findFirst, hqx, ih hf]

theorem findFirst_rm (l : List Nat) (p : Nat → Bool) (j v : Nat)
    (hf : findFirst p l = some v) (hvj : v ≠ j) :
    findFirst p (rmFirst j l) = some v := by
  induction l with
  | nil => simp [findFirst] at hf
  | cons x t ih =>
    by_cases hx : p x = true
    · simp only [findFirst, hx, if_true, Option.some.injEq] at hf
      subst hf
      have hxj : ¬ x = j := hvj
      simp [rmFirst, hxj, findFirst, hx]
    · have hx2 : p x = false := by
        cases hpx : p x
        · rfl
        · exact absurd hpx hx
      simp only [findFirst, hx, if_false] at hf
      by_cases hxj : x = j
      · simpa [rmFirst, hxj] using hf
      · simp [rmFirst, hxj, findFirst, hx2, ih hf]

theorem findFirst_new (l : List Nat) (p q : Nat → Bool) (j : Nat) (hj : j ∈ l)
    (hnone : ∀ x ∈ l, p x = false) (hq : ∀ x, x ≠ j → q x = p x) (hqj : q j = true) :
    findFirst q l = some j := by
  induction l with
  | nil => simp at hj
  | cons x t ih =>
    by_cases hxj : x = j
    · subst hxj
      simp [findFirst, hqj]
    · have hqx : q x = false :=
        (hq x hxj).trans (hnone x (List.mem_cons_self _ _))
      have hj2 : j ∈ t := by
        rcases List.mem_cons.mp hj with hc | hc
        · exact absurd hc.symm hxj
        · exact hc
      have hnone2 : ∀ x ∈ t, p x = false := fun y hy => hnone y (List.mem_cons_of_mem _ hy)
      simp [findFirst, hqx, ih hj2 hnone2]

theorem findFreeIdx_some (l : List Buf) (j : Nat) (h : findFreeIdx l = some j) :
    j < l.length ∧ (l.getD j default).refcnt = 0 ∧
      ∀ k, k < j → (l.getD k default).refcnt ≠ 0 := by
  induction l generalizing j with
  | nil => simp [findFreeIdx] at h
  | cons x t ih =>
    by_cases hx : x.refcnt = 0
    · simp only [findFreeIdx, beq_iff_eq, hx, if_true, Option.some.injEq] at h
      subst h
      exact ⟨Nat.succ_pos _, hx, fun k hk => absurd hk (Nat.not_lt_zero _)⟩
    · have hx2 : ¬ (x.refcnt == 0) = true := by simpa using hx
      have hx3 : (x.refcnt == 0) = false := by simpa using hx
      simp only [findFreeIdx, hx3, Bool.false_eq_true, if_false, Option.map_eq_some'] at h
      rcases h with ⟨k, hk, rfl⟩
      rcases ih k hk with ⟨h1, h2, h3⟩
      refine ⟨Nat.succ_lt_succ h1, h2, ?_⟩
      intro m hm
      cases m with
      | zero => simpa using hx
      | succ m2 => exact h3 m2 (Nat.lt_of_succ_lt_succ hm)

theorem findFreeIdx_none (l : List Buf) :
    findFreeIdx l = none ↔ ∀ k, k < l.length → (l.getD k default).refcnt ≠ 0 := by
  induction l with
  | nil => simp [findFreeIdx]
  | cons x t ih =>
    by_cases hx : x.refcnt = 0
    · simp only [findFreeIdx, beq_iff_eq, hx, if_true]
      constructor
      · intro h
        exact absurd h (by simp)
      · intro h
        exact absurd hx (h 0 (Nat.succ_pos _))
    · have hx3 : (x.refcnt == 0) = false := by simpa using hx
      simp only [findFreeIdx, hx3, Bool.false_eq_true, if_false, Option.map_eq_none', ih]
      constructor
      · intro h k hk
        cases k with
        | zero => simpa using hx
        | succ m => exact h m (Nat.lt_of_succ_lt_succ hk)
      · intro h k hk
        exact h (k + 1) (Nat.succ_lt_succ hk)

theorem length_setSlot (s : BCache) (i : Nat) (x : Buf) :
    (setSlot s i x).bufs.length = s.bufs.length := by
  simp [setSlot]

theorem buckets_setSlot (s : BCache) (i : Nat) (x : Buf) :
    (setSlot s i x).buckets = s.buckets := rfl

theorem bucketOf_setSlot (s : BCache) (i : Nat) (x : Buf) (b : Nat) :
    bucketOf (setSlot s i x) b = bucketOf s b := rfl

theorem slotOf_setSlot_self (s : BCache) (i : Nat) (x : Buf) (h : i < s.bufs.length) :
    slotOf (setSlot s i x) i = x := by
  simp only [slotOf, setSlot]
  exact lgetD_set_self _ _ _ _ h

theorem slotOf_setSlot_ne (s : BCache) (i j : Nat) (x : Buf) (h : i ≠ j) :
    slotOf (setSlot s i x) j = slotOf s j := by
  simp only [slotOf, setSlot]
  exact lgetD_set_ne _ _ _ _ _ h

theorem bufs_setBucket (s : BCache) (b : Nat) (l : List Nat) :
    (setBucket s b l).bufs = s.bufs := rfl

theorem slotOf_setBucket (s : BCache) (b : Nat) (l : List Nat) (i : Nat) :
    slotOf (setBucket s b l) i = slotOf s i := rfl

theorem bucketOf_setBucket_self (s : BCache) (b : Nat) (l : List Nat)
    (h : b < s.buckets.length) : bucketOf (setBucket s b l) b = l := by
  simp only [bucketOf, setBucket]
  exact lgetD_set_self _ _ _ _ h

theorem bucketOf_setBucket_ne (s : BCache) (b b2 : Nat) (l : List Nat) (h : b ≠ b2) :
    bucketOf (setBucket s b l) b2 = bucketOf s b2 := by
  simp only [bucketOf, setBucket]
  exact lgetD_set_ne _ _ _ _ _ h

theorem getD_map_rmFirst (j : Nat) (L : List (List Nat)) (b : Nat) :
    (L.map (rmFirst j)).getD b [] = rmFirst j (L.getD b []) := by
  induction L generalizing b with
  | nil => simp [rmFirst]
  | cons l t ih =>
    cases b with
    | zero => simp
    | succ m => simpa using ih m

theorem stealRelink_bufs (s : BCache) (j h : Nat) :
    (stealRelink s j h).bufs = s.bufs := rfl

theorem stealRelink_slotOf (s : BCache) (j h i : Nat) :
    slotOf (stealRelink s j h) i = slotOf s i := rfl

theorem stealRelink_buckets_length (s : BCache) (j h : Nat) :
    (stealRelink s j h).buckets.length = s.buckets.length := by
  simp [stealRelink, setBucket]

theorem bucketOf_mapRm (s : BCache) (j b : Nat) :
    bucketOf { s with buckets := s.buckets.map (rmFirst j) } b = rmFirst j (bucketOf s b) :=
  getD_map_rmFirst j s.buckets b

theorem stealRelink_bucketOf_self (s : BCache) (j h : Nat) (hb : h < s.buckets.length) :
    bucketOf (stealRelink s j h) h = j :: rmFirst j (bucketOf s h) := by
  simp only [stealRelink]
  rw [bucketOf_setBucket_self _ _ _ (by simpa using hb), bucketOf_mapRm]

theorem stealRelink_bucketOf_ne (s : BCache) (j h b : Nat) (hb : h ≠ b) :
    bucketOf (stealRelink s j h) b = rmFirst j (bucketOf s b) := by
  simp only [stealRelink]
  rw [bucketOf_setBucket_ne _ _ _ _ hb, bucketOf_mapRm]

theorem findMatch_congr (s s2 : BCache) (h dev blk : Nat)
    (hb : bucketOf s2 h = bucketOf s h)
    (hk : ∀ i, i ∈ bucketOf s h → bmatch dev blk (slotOf s2 i) = bmatch dev blk (slotOf s i)) :
    findMatch s2 h dev blk = findMatch s h dev blk := by
  unfold findMatch
  rw [hb]
  exact findFirst_congr _ _ _ hk

theorem HASH_lt (x : Nat) : HASH x < NBUCKET := Nat.mod_lt _ (by decide)

theorem bmatch_true (dev blk : Nat) (x : Buf) :
    bmatch dev blk x = true ↔ x.dev = dev ∧ x.blockno = blk := by
  simp [bmatch]

theorem bmatch_eq (dev blk : Nat) (x y : Buf) (h1 : x.dev = y.dev) (h2 : x.blockno = y.blockno) :
    bmatch dev blk x = bmatch dev blk y := by
  simp [bmatch, h1, h2]

theorem cnt_one_mem (i : Nat) (l : List Nat) (h : cnt i l = 1) : i ∈ l := by
  by_cases hm : i ∈ l
  · exact hm
  · rw [(cnt_eq_zero i l).mpr hm] at h
    exact absurd h (by decide)

theorem binit_bufs_length (n : Nat) : (binit n).bufs.length = n := by
  simp [binit]

theorem binit_buckets_length (n : Nat) : (binit n).buckets.length = NBUCKET := by
  simp [binit, NBUCKET]

theorem slotOf_binit (n i : Nat) (h : i < n) :
    slotOf (binit n) i = ⟨0, 0, false, 0, false, []⟩ := by
  simp only [slotOf, binit, lgetD_replicate]
  rw [if_pos h]

theorem bucketOf_binit_zero (n : Nat) : bucketOf (binit n) 0 = descList n := rfl

theorem bucketOf_binit_pos (n b : Nat) (h : b ≠ 0) : bucketOf (binit n) b = [] := by
  cases b with
  | zero => exact absurd rfl h
  | succ m =>
    simp only [bucketOf, binit, List.getD_cons_succ, lgetD_replicate]
    split
    · rfl
    · rfl

theorem cacheInv_binit (n : Nat) : CacheInv (binit n) := by
  refine ⟨⟨binit_buckets_length n, ?_⟩, ?_, ?_⟩
  · intro i hi b hb
    rw [binit_bufs_length] at hi
    rw [slotOf_binit n i hi]
    by_cases hb0 : b = 0
    · subst hb0
      rw [bucketOf_binit_zero, cnt_descList, if_pos hi]
      simp [HASH]
    · rw [bucketOf_binit_pos n b hb0]
      have : ¬ b = HASH 0 := by
        simpa [HASH] using hb0
      simp [cnt, this]
  · intro b _ i hi
    by_cases hb0 : b = 0
    · subst hb0
      rw [bucketOf_binit_zero, mem_descList] at hi
      rw [binit_bufs_length]
      exact hi
    · rw [bucketOf_binit_pos n b hb0] at hi
      simp at hi
  · intro i hi hv
    rw [binit_bufs_length] at hi
    rw [slotOf_binit n i hi] at hv
    exact absurd hv (by decide)

theorem cacheInv_congr (s s2 : BCache)
    (hb : s2.buckets = s.buckets)
    (hl : s2.bufs.length = s.bufs.length)
    (hk : ∀ i, (slotOf s2 i).dev = (slotOf s i).dev ∧
      (slotOf s2 i).blockno = (slotOf s i).blockno ∧
      (slotOf s2 i).valid = (slotOf s i).valid)
    (h : CacheInv s) : CacheInv s2 := by
  obtain ⟨⟨hbl, hbc⟩, hwf, hvfm⟩ := h
  have hbo : ∀ b, bucketOf s2 b = bucketOf s b := by
    intro b
    simp [bucketOf, hb]
  refine ⟨⟨hb ▸ hbl, ?_⟩, ?_, ?_⟩
  · intro i hi b hbn
    rw [hbo b, (hk i).2.1, hbc i (hl ▸ hi) b hbn]
  · intro b hbn i hi
    rw [hbo b] at hi
    rw [hl]
    exact hwf b hbn i hi
  · intro i hi hv
    rw [(hk i).2.1, (hk i).1]
    have hv0 : (slotOf s i).valid = true := (hk i).2.2 ▸ hv
    have := hvfm i (hl ▸ hi) hv0
    rw [← this]
    exact findMatch_congr s s2 _ _ _ (hbo _)
      (fun x _ => bmatch_eq _ _ _ _ (hk x).1 (hk x).2.1)

theorem acquireSleep_ok (s : BCache) (j : Nat) (s2 : BCache) (j2 : Nat) (evs : List Ev)
    (h : acquireSleep s j = Outcome.ok s2 j2 evs) :
    j2 = j ∧ evs = [] ∧ (slotOf s j).lockHeld = false ∧
    s2 = setSlot s j { slotOf s j with lockHeld := true } := by
  unfold acquireSleep at h
  by_cases hl : (slotOf s j).lockHeld
  · simp [hl] at h
  · have hl2 : (slotOf s j).lockHeld = false := by simpa using hl
    simp only [hl2, Bool.false_eq_true, if_false, Outcome.ok.injEq] at h
    exact ⟨h.2.1.symm, h.2.2.symm, hl2, h.1.symm⟩

theorem bget_cases (s : BCache) (dev blk : Nat) (s2 : BCache) (j : Nat) (evs : List Ev)
    (h : bget s dev blk = Outcome.ok s2 j evs) :
    (findMatch s (HASH blk) dev blk = some j ∧
      acquireSleep (bumpRef s j) j = Outcome.ok s2 j evs) ∨
    (findMatch s (HASH blk) dev blk = none ∧ firstFree s = some j ∧
      HASH (slotOf s j).blockno = HASH blk ∧
      acquireSleep (claimSlot s j dev blk) j = Outcome.ok s2 j evs) ∨
    (findMatch s (HASH blk) dev blk = none ∧ firstFree s = some j ∧
      HASH (slotOf s j).blockno ≠ HASH blk ∧
      acquireSleep (stealRelink (claimSlot s j dev blk) j (HASH blk)) j = Outcome.ok s2 j evs) := by
  unfold bget at h
  split at h
  next i hm =>
    have hj : i = j := (acquireSleep_ok _ _ _ _ _ h).1.symm
    subst hj
    exact Or.inl ⟨hm, h⟩
  next hm =>
    split at h
    next j0 hf =>
      split at h
      next hEq =>
        have hj : j0 = j := (acquireSleep_ok _ _ _ _ _ h).1.symm
        subst hj
        exact Or.inr (Or.inl ⟨hm, hf, hEq, h⟩)
      next hEq =>
        have hj : j0 = j := (acquireSleep_ok _ _ _ _ _ h).1.symm
        subst hj
        exact Or.inr (Or.inr ⟨hm, hf, hEq, h⟩)
    next hf =>
      exact absurd h (by simp)

theorem bucketConsistent_congr (s s2 : BCache)
    (hb : s2.buckets = s.buckets)
    (hl : s2.bufs.length = s.bufs.length)
    (hk : ∀ i, (slotOf s2 i).blockno = (slotOf s i).blockno)
    (h : bucketConsistent s) : bucketConsistent s2 := by
  obtain ⟨hbl, hbc⟩ := h
  refine ⟨hb ▸ hbl, ?_⟩
  intro i hi b hbn
  have hbo : bucketOf s2 b = bucketOf s b := by simp [bucketOf, hb]
  rw [hbo, hk i, hbc i (hl ▸ hi) b hbn]

theorem bucketsWF_congr (s s2 : BCache)
    (hb : s2.buckets = s.buckets)
    (hl : s2.bufs.length = s.bufs.length)
    (h : bucketsWF s) : bucketsWF s2 := by
  intro b hbn i hi
  have hbo : bucketOf s2 b = bucketOf s b := by simp [bucketOf, hb]
  rw [hbo] at hi
  rw [hl]
  exact h b hbn i hi

theorem miss_no_valid_key (s : BCache) (dev blk : Nat) (hI : CacheInv s)
    (hm : findMatch s (HASH blk) dev blk = none)
    (v : Nat) (hv : v < s.bufs.length) (hval : (slotOf s v).valid = true)
    (hdev : (slotOf s v).dev = dev) (hblk : (slotOf s v).blockno = blk) : False := by
  have hfm := hI.2.2 v hv hval
  rw [hdev, hblk, hm] at hfm
  exact absurd hfm (by simp)

theorem cacheInv_validate (s2 : BCache) (dev blk j : Nat) (d : List Nat)
    (hI : CacheInv s2) (hj : j < s2.bufs.length)
    (hfm : findMatch s2 (HASH blk) dev blk = some j)
    (hdev : (slotOf s2 j).dev = dev) (hblk : (slotOf s2 j).blockno = blk) :
    CacheInv (setSlot s2 j { slotOf s2 j with valid := true, data := d }) := by
  obtain ⟨hbc, hwf, hvfm⟩ := hI
  set s3 := setSlot s2 j { slotOf s2 j with valid := true, data := d } with hs3
  have hl : s3.bufs.length = s2.bufs.length := length_setSlot _ _ _
  have hbk : s3.buckets = s2.buckets := buckets_setSlot _ _ _
  have hj3 : slotOf s3 j = { slotOf s2 j with valid := true, data := d } :=
    slotOf_setSlot_self _ _ _ hj
  have hkeep : ∀ k, k ≠ j → slotOf s3 k = slotOf s2 k := by
    intro k hk
    exact slotOf_setSlot_ne _ _ _ _ (fun hc => hk hc.symm)
  have hkdev : ∀ i, (slotOf s3 i).dev = (slotOf s2 i).dev := by
    intro i
    by_cases hij : i = j
    · subst hij
      rw [hj3]
    · rw [hkeep i hij]
  have hkblk : ∀ i, (slotOf s3 i).blockno = (slotOf s2 i).blockno := by
    intro i
    by_cases hij : i = j
    · subst hij
      rw [hj3]
    · rw [hkeep i hij]
  have hfm_congr : ∀ h0 d0 b0, findMatch s3 h0 d0 b0 = findMatch s2 h0 d0 b0 := by
    intro h0 d0 b0
    refine findMatch_congr s2 s3 h0 d0 b0 (by simp [bucketOf, hbk]) ?_
    intro x _
    exact bmatch_eq _ _ _ _ (hkdev x) (hkblk x)
  refine ⟨bucketConsistent_congr s2 s3 hbk hl hkblk hbc,
    bucketsWF_congr s2 s3 hbk hl hwf, ?_⟩
  intro v hv hval
  by_cases hvj : v = j
  · subst hvj
    rw [hj3]
    rw [hfm_congr, hdev, hblk]
    simpa [hdev, hblk] using hfm
  · rw [hkeep v hvj] at hval ⊢
    rw [hfm_congr]
    exact hvfm v (hl ▸ hv) hval

theorem length_bumpRef (s : BCache) (i : Nat) :
    (bumpRef s i).bufs.length = s.bufs.length := length_setSlot _ _ _

theorem buckets_bumpRef (s : BCache) (i : Nat) : (bumpRef s i).buckets = s.buckets := rfl

theorem slotOf_bumpRef_self (s : BCache) (i : Nat) (h : i < s.bufs.length) :
    slotOf (bumpRef s i) i = { slotOf s i with refcnt := (slotOf s i).refcnt + 1 } :=
  slotOf_setSlot_self _ _ _ h

theorem slotOf_bumpRef_ne (s : BCache) (i k : Nat) (h : i ≠ k) :
    slotOf (bumpRef s i) k = slotOf s k := slotOf_setSlot_ne _ _ _ _ h

theorem length_claimSlot (s : BCache) (j dev blk : Nat) :
    (claimSlot s j dev blk).bufs.length = s.bufs.length := length_setSlot _ _ _

theorem buckets_claimSlot (s : BCache) (j dev blk : Nat) :
    (claimSlot s j dev blk).buckets = s.buckets := rfl

theorem slotOf_claimSlot_self (s : BCache) (j dev blk : Nat) (h : j < s.bufs.length) :
    slotOf (claimSlot s j dev blk) j =
      { slotOf s j with dev := dev, blockno := blk, valid := false, refcnt := 1 } :=
  slotOf_setSlot_self _ _ _ h

theorem slotOf_claimSlot_ne (s : BCache) (j dev blk k : Nat) (h : j ≠ k) :
    slotOf (claimSlot s j dev blk) k = slotOf s k := slotOf_setSlot_ne _ _ _ _ h

theorem bget_hit_post (s : BCache) (dev blk : Nat) (s2 : BCache) (j : Nat) (evs : List Ev)
    (hI : CacheInv s)
    (hm : findMatch s (HASH blk) dev blk = some j)
    (hA : acquireSleep (bumpRef s j) j = Outcome.ok s2 j evs) :
    BgetPost s dev blk s2 j ∧ evs = [] ∧
      (slotOf s2 j).valid = (slotOf s j).valid ∧ s2.buckets = s.buckets := by
  obtain ⟨-, hevs, hlk, hs2⟩ := acquireSleep_ok _ _ _ _ _ hA
  have hm' : findFirst (fun i => bmatch dev blk (slotOf s i)) (bucketOf s (HASH blk)) = some j := hm
  have hmem := findFirst_mem _ _ _ hm'
  have hjlen : j < s.bufs.length := hI.2.1 (HASH blk) (HASH_lt blk) j hmem.1
  have hkey := (bmatch_true dev blk (slotOf s j)).mp hmem.2
  have hbump : slotOf (bumpRef s j) j = { slotOf s j with refcnt := (slotOf s j).refcnt + 1 } :=
    slotOf_bumpRef_self s j hjlen
  have hjlen2 : j < (bumpRef s j).bufs.length := by
    rw [length_bumpRef]
    exact hjlen
  have hslot2 : slotOf s2 j =
      { slotOf s j with refcnt := (slotOf s j).refcnt + 1, lockHeld := true } := by
    rw [hs2, slotOf_setSlot_self _ _ _ hjlen2, hbump]
  have hkeep : ∀ k, k ≠ j → slotOf s2 k = slotOf s k := by
    intro k hk
    rw [hs2, slotOf_setSlot_ne _ _ _ _ (Ne.symm hk), slotOf_bumpRef_ne _ _ _ (Ne.symm hk)]
  have hbuckets : s2.buckets = s.buckets := by
    rw [hs2]
    rfl
  have hlen2 : s2.bufs.length = s.bufs.length := by
    rw [hs2, length_setSlot, length_bumpRef]
  have hlk0 : (slotOf s j).lockHeld = false := by
    rw [hbump] at hlk
    exact hlk
  have hfields : ∀ i, (slotOf s2 i).dev = (slotOf s i).dev ∧
      (slotOf s2 i).blockno = (slotOf s i).blockno ∧
      (slotOf s2 i).valid = (slotOf s i).valid := by
    intro i
    by_cases hij : i = j
    · subst hij
      rw [hslot2]
      exact ⟨rfl, rfl, rfl⟩
    · rw [hkeep i hij]
      exact ⟨rfl, rfl, rfl⟩
  have hInv2 : CacheInv s2 := cacheInv_congr s s2 hbuckets hlen2 hfields hI
  have hfm2 : findMatch s2 (HASH blk) dev blk = some j := by
    rw [findMatch_congr s s2 (HASH blk) dev blk (by simp [bucketOf, hbuckets])
      (fun x _ => bmatch_eq _ _ _ _ (hfields x).1 (hfields x).2.1)]
    exact hm
  refine ⟨⟨hInv2, hjlen, hlen2, by rw [hbuckets], ?_, ?_, hfm2, hlk0, ?_, ?_, ?_, hkeep⟩,
    hevs, ?_, hbuckets⟩
  · rw [hslot2]
    exact hkey.1
  · rw [hslot2]
    exact hkey.2
  · rw [hslot2]
  · rw [hslot2]
  · rw [hslot2]
  · rw [hslot2]

theorem bget_same_post (s : BCache) (dev blk : Nat) (s2 : BCache) (j : Nat) (evs : List Ev)
    (hI : CacheInv s)
    (hm : findMatch s (HASH blk) dev blk = none)
    (hf : firstFree s = some j)
    (hEq : HASH (slotOf s j).blockno = HASH blk)
    (hA : acquireSleep (claimSlot s j dev blk) j = Outcome.ok s2 j evs) :
    BgetPost s dev blk s2 j ∧ evs = [] ∧
      (slotOf s2 j).valid = false ∧ s2.buckets = s.buckets ∧ (slotOf s j).refcnt = 0 := by
  obtain ⟨-, hevs, hlk, hs2⟩ := acquireSleep_ok _ _ _ _ _ hA
  obtain ⟨hjlen, hrc0, -⟩ := findFreeIdx_some s.bufs j hf
  have hrc0' : (slotOf s j).refcnt = 0 := hrc0
  have hclaim : slotOf (claimSlot s j dev blk) j =
      { slotOf s j with dev := dev, blockno := blk, valid := false, refcnt := 1 } :=
    slotOf_claimSlot_self s j dev blk hjlen
  have hjlen2 : j < (claimSlot s j dev blk).bufs.length := by
    rw [length_claimSlot]
    exact hjlen
  have hslot2 : slotOf s2 j = { slotOf s j with dev := dev, blockno := blk, valid := false, refcnt := 1, lockHeld := true } := by
    rw [hs2, slotOf_setSlot_self _ _ _ hjlen2, hclaim]
  have hkeep : ∀ k, k ≠ j → slotOf s2 k = slotOf s k := by
    intro k hk
    rw [hs2, slotOf_setSlot_ne _ _ _ _ (Ne.symm hk), slotOf_claimSlot_ne _ _ _ _ _ (Ne.symm hk)]
  have hbuckets : s2.buckets = s.buckets := by
    rw [hs2]
    rfl
  have hlen2 : s2.bufs.length = s.bufs.length := by
    rw [hs2, length_setSlot, length_claimSlot]
  have hlk0 : (slotOf s j).lockHeld = false := by
    rw [hclaim] at hlk
    exact hlk
  have hbo : ∀ b, bucketOf s2 b = bucketOf s b := by
    intro b
    simp [bucketOf, hbuckets]
  have hdev2 : (slotOf s2 j).dev = dev := by rw [hslot2]
  have hblk2 : (slotOf s2 j).blockno = blk := by rw [hslot2]
  have hq : ∀ d0 b0 : Nat, ∀ x, x ≠ j →
      bmatch d0 b0 (slotOf s2 x) = bmatch d0 b0 (slotOf s x) := by
    intro d0 b0 x hx
    rw [hkeep x hx]
  have hbc := hI.1.2
  have hInv2 : CacheInv s2 := by
    refine ⟨⟨hbuckets ▸ hI.1.1, ?_⟩, bucketsWF_congr s s2 hbuckets hlen2 hI.2.1, ?_⟩
    · intro i2 hi2 b hbn
      rw [hbo b]
      by_cases hij : i2 = j
      · subst hij
        rw [hblk2]
        have hc := hbc i2 hjlen b hbn
        rw [hEq] at hc
        exact hc
      · rw [(by rw [hkeep i2 hij] : (slotOf s2 i2).blockno = (slotOf s i2).blockno)]
        exact hbc i2 (hlen2 ▸ hi2) b hbn
    · intro v hv hval
      by_cases hvj : v = j
      · subst hvj
        rw [hslot2] at hval
        exact absurd hval (by simp)
      · have hvs : slotOf s2 v = slotOf s v := hkeep v hvj
        rw [hvs] at hval ⊢
        have hold := hI.2.2 v (by rw [← hlen2]; exact hv) hval
        have hold' : findFirst (fun x => bmatch (slotOf s v).dev (slotOf s v).blockno (slotOf s x))
            (bucketOf s (HASH (slotOf s v).blockno)) = some v := hold
        have hnew : findFirst (fun x => bmatch (slotOf s v).dev (slotOf s v).blockno (slotOf s2 x))
            (bucketOf s (HASH (slotOf s v).blockno)) = some v := by
          refine findFirst_upd _ _ _ j v hold' hvj (fun x hx => hq _ _ x hx) ?_
          cases hb : bmatch (slotOf s v).dev (slotOf s v).blockno (slotOf s2 j) with
          | false => rfl
          | true =>
            exfalso
            have hkey := (bmatch_true _ _ _).mp hb
            rw [hdev2] at hkey
            rw [hblk2] at hkey
            exact miss_no_valid_key s dev blk hI hm v (by rw [← hlen2]; exact hv) hval
              hkey.1.symm hkey.2.symm
        show findFirst (fun x => bmatch (slotOf s v).dev (slotOf s v).blockno (slotOf s2 x))
            (bucketOf s2 (HASH (slotOf s v).blockno)) = some v
        rw [hbo]
        exact hnew
  have hfm2 : findMatch s2 (HASH blk) dev blk = some j := by
    show findFirst (fun x => bmatch dev blk (slotOf s2 x)) (bucketOf s2 (HASH blk)) = some j
    rw [hbo]
    have hmem : j ∈ bucketOf s (HASH blk) := by
      apply cnt_one_mem
      have hc := hbc j hjlen (HASH blk) (HASH_lt blk)
      rw [hEq, if_pos rfl] at hc
      exact hc
    refine findFirst_new _ (fun x => bmatch dev blk (slotOf s x)) _ j hmem ?_
      (fun x hx => hq _ _ x hx) ?_
    · exact (findFirst_eq_none _ _).mp hm
    · exact (bmatch_true _ _ _).mpr ⟨hdev2, hblk2⟩
  refine ⟨⟨hInv2, hjlen, hlen2, by rw [hbuckets], hdev2, hblk2, hfm2, hlk0, ?_, ?_, ?_, hkeep⟩,
    hevs, by rw [hslot2], hbuckets, hrc0'⟩
  · rw [hslot2]
  · rw [hslot2, hrc0']
    simp
  · rw [hslot2]

theorem bget_steal_post (s : BCache) (dev blk : Nat) (s2 : BCache) (j : Nat) (evs : List Ev)
    (hI : CacheInv s)
    (hm : findMatch s (HASH blk) dev blk = none)
    (hf : firstFree s = some j)
    (hNe : HASH (slotOf s j).blockno ≠ HASH blk)
    (hA : acquireSleep (stealRelink (claimSlot s j dev blk) j (HASH blk)) j = Outcome.ok s2 j evs) :
    BgetPost s dev blk s2 j ∧ evs = [] ∧ (slotOf s2 j).valid = false ∧
      bucketOf s2 (HASH blk) = j :: rmFirst j (bucketOf s (HASH blk)) ∧
      (∀ b, b ≠ HASH blk → bucketOf s2 b = rmFirst j (bucketOf s b)) ∧
      (slotOf s j).refcnt = 0 := by
  obtain ⟨-, hevs, hlk, hs2⟩ := acquireSleep_ok _ _ _ _ _ hA
  obtain ⟨hjlen, hrc0, -⟩ := findFreeIdx_some s.bufs j hf
  have hrc0' : (slotOf s j).refcnt = 0 := hrc0
  have hbc := hI.1.2
  have hclaim : slotOf (claimSlot s j dev blk) j = { slotOf s j with dev := dev, blockno := blk, valid := false, refcnt := 1 } :=
    slotOf_claimSlot_self s j dev blk hjlen
  have hD : slotOf (stealRelink (claimSlot s j dev blk) j (HASH blk)) j = { slotOf s j with dev := dev, blockno := blk, valid := false, refcnt := 1 } := by
    rw [stealRelink_slotOf, hclaim]
  have hjlenD : j < (stealRelink (claimSlot s j dev blk) j (HASH blk)).bufs.length := by
    rw [(by rw [stealRelink_bufs] : (stealRelink (claimSlot s j dev blk) j (HASH blk)).bufs = (claimSlot s j dev blk).bufs), length_claimSlot]
    exact hjlen
  have hslot2 : slotOf s2 j = { slotOf s j with dev := dev, blockno := blk, valid := false, refcnt := 1, lockHeld := true } := by
    rw [hs2, slotOf_setSlot_self _ _ _ hjlenD, hD]
  have hkeep : ∀ k, k ≠ j → slotOf s2 k = slotOf s k := by
    intro k hk
    rw [hs2, slotOf_setSlot_ne _ _ _ _ (Ne.symm hk), stealRelink_slotOf,
      slotOf_claimSlot_ne _ _ _ _ _ (Ne.symm hk)]
  have hlk0 : (slotOf s j).lockHeld = false := by
    rw [hD] at hlk
    exact hlk
  have hCbl : (claimSlot s j dev blk).buckets.length = NBUCKET := by
    rw [buckets_claimSlot]
    exact hI.1.1
  have hhome : bucketOf s2 (HASH blk) = j :: rmFirst j (bucketOf s (HASH blk)) := by
    rw [hs2, bucketOf_setSlot,
      stealRelink_bucketOf_self _ _ _ (by rw [hCbl]; exact HASH_lt blk)]
    rfl
  have hother : ∀ b, b ≠ HASH blk → bucketOf s2 b = rmFirst j (bucketOf s b) := by
    intro b hb
    rw [hs2, bucketOf_setSlot, stealRelink_bucketOf_ne _ _ _ _ (Ne.symm hb)]
    rfl
  have hlen2 : s2.bufs.length = s.bufs.length := by
    rw [hs2, length_setSlot,
      (by rw [stealRelink_bufs] : (stealRelink (claimSlot s j dev blk) j (HASH blk)).bufs = (claimSlot s j dev blk).bufs),
      length_claimSlot]
  have hblen2 : s2.buckets.length = s.buckets.length := by
    rw [hs2, buckets_setSlot, stealRelink_buckets_length, buckets_claimSlot]
  have hdev2 : (slotOf s2 j).dev = dev := by rw [hslot2]
  have hblk2 : (slotOf s2 j).blockno = blk := by rw [hslot2]
  have hq : ∀ d0 b0 : Nat, ∀ x, x ≠ j →
      bmatch d0 b0 (slotOf s2 x) = bmatch d0 b0 (slotOf s x) := by
    intro d0 b0 x hx
    rw [hkeep x hx]
  have hcnt_home : cnt j (bucketOf s (HASH blk)) = 0 := by
    have hc := hbc j hjlen (HASH blk) (HASH_lt blk)
    rw [if_neg (Ne.symm hNe)] at hc
    exact hc
  have hInv2 : CacheInv s2 := by
    refine ⟨⟨hblen2 ▸ hI.1.1, ?_⟩, ?_, ?_⟩
    · intro i2 hi2 b hbn
      by_cases hij : i2 = j
      · subst hij
        rw [hblk2]
        by_cases hbh : b = HASH blk
        · subst hbh
          rw [hhome, cnt_cons, if_pos rfl, cnt_rmFirst_self, hcnt_home, if_pos rfl]
        · rw [hother b hbh, cnt_rmFirst_self, if_neg hbh]
          have hc := hbc i2 hjlen b hbn
          by_cases hbold : b = HASH (slotOf s i2).blockno
          · rw [if_pos hbold] at hc
            rw [hc]
          · rw [if_neg hbold] at hc
            rw [hc]
      · have hb2 : (slotOf s2 i2).blockno = (slotOf s i2).blockno := by
          rw [hkeep i2 hij]
        rw [hb2]
        by_cases hbh : b = HASH blk
        · subst hbh
          rw [hhome, cnt_cons, if_neg (fun hc => hij hc.symm), cnt_rmFirst_ne i2 j _ hij,
            Nat.zero_add]
          exact hbc i2 (hlen2 ▸ hi2) _ hbn
        · rw [hother b hbh, cnt_rmFirst_ne i2 j _ hij]
          exact hbc i2 (hlen2 ▸ hi2) b hbn
    · intro b hbn i2 hi2
      rw [hlen2]
      by_cases hbh : b = HASH blk
      · subst hbh
        rw [hhome] at hi2
        rcases List.mem_cons.mp hi2 with hc | hc
        · subst hc
          exact hjlen
        · exact hI.2.1 _ hbn i2 (mem_rmFirst _ _ _ hc)
      · rw [hother b hbh] at hi2
        exact hI.2.1 _ hbn i2 (mem_rmFirst _ _ _ hi2)
    · intro v hv hval
      by_cases hvj : v = j
      · subst hvj
        rw [hslot2] at hval
        exact absurd hval (by simp)
      · have hvs : slotOf s2 v = slotOf s v := hkeep v hvj
        rw [hvs] at hval ⊢
        have hold : findFirst (fun x => bmatch (slotOf s v).dev (slotOf s v).blockno (slotOf s x))
            (bucketOf s (HASH (slotOf s v).blockno)) = some v :=
          hI.2.2 v (by rw [← hlen2]; exact hv) hval
        have hpj : bmatch (slotOf s v).dev (slotOf s v).blockno (slotOf s2 j) = false := by
          cases hb : bmatch (slotOf s v).dev (slotOf s v).blockno (slotOf s2 j) with
          | false => rfl
          | true =>
            exfalso
            have hkey := (bmatch_true _ _ _).mp hb
            rw [hdev2] at hkey
            rw [hblk2] at hkey
            exact miss_no_valid_key s dev blk hI hm v (by rw [← hlen2]; exact hv) hval
              hkey.1.symm hkey.2.symm
        have hrm : findFirst (fun x => bmatch (slotOf s v).dev (slotOf s v).blockno (slotOf s x))
            (rmFirst j (bucketOf s (HASH (slotOf s v).blockno))) = some v :=
          findFirst_rm _ _ _ _ hold hvj
        have hupd : findFirst (fun x => bmatch (slotOf s v).dev (slotOf s v).blockno (slotOf s2 x))
            (rmFirst j (bucketOf s (HASH (slotOf s v).blockno))) = some v :=
          findFirst_upd _ _ _ j v hrm hvj (fun x hx => hq _ _ x hx) hpj
        show findFirst (fun x => bmatch (slotOf s v).dev (slotOf s v).blockno (slotOf s2 x))
            (bucketOf s2 (HASH (slotOf s v).blockno)) = some v
        by_cases hbh : HASH (slotOf s v).blockno = HASH blk
        · rw [hbh, hhome, findFirst, hpj]
          rw [hbh] at hupd
          simpa using hupd
        · rw [hother _ hbh]
          exact hupd
  have hfm2 : findMatch s2 (HASH blk) dev blk = some j := by
    show findFirst (fun x => bmatch dev blk (slotOf s2 x)) (bucketOf s2 (HASH blk)) = some j
    rw [hhome, findFirst, (bmatch_true _ _ _).mpr ⟨hdev2, hblk2⟩]
    simp
  refine ⟨⟨hInv2, hjlen, hlen2, hblen2, hdev2, hblk2, hfm2, hlk0, ?_, ?_, ?_, hkeep⟩,
    hevs, by rw [hslot2], hhome, hother, hrc0'⟩
  · rw [hslot2]
  · rw [hslot2, hrc0']
    simp
  · rw [hslot2]

theorem bget_post (s : BCache) (dev blk : Nat) (s2 : BCache) (j : Nat) (evs : List Ev)
    (hI : CacheInv s) (h : bget s dev blk = Outcome.ok s2 j evs) :
    BgetPost s dev blk s2 j ∧ evs = [] ∧
      (findMatch s (HASH blk) dev blk = none → (slotOf s2 j).valid = false) := by
  rcases bget_cases s dev blk s2 j evs h with ⟨hm, hA⟩ | ⟨hm, hf, hEq, hA⟩ | ⟨hm, hf, hNe, hA⟩
  · obtain ⟨hp, hevs, -, -⟩ := bget_hit_post s dev blk s2 j evs hI hm hA
    refine ⟨hp, hevs, ?_⟩
    intro hc
    rw [hm] at hc
    exact absurd hc (by simp)
  · obtain ⟨hp, hevs, hval, -, -⟩ := bget_same_post s dev blk s2 j evs hI hm hf hEq hA
    exact ⟨hp, hevs, fun _ => hval⟩
  · obtain ⟨hp, hevs, hval, -, -, -⟩ := bget_steal_post s dev blk s2 j evs hI hm hf hNe hA
    exact ⟨hp, hevs, fun _ => hval⟩

theorem bread_post (disk : Nat → Nat → List Nat) (s : BCache) (dev blk : Nat)
    (s2 : BCache) (j : Nat) (evs : List Ev)
    (hI : CacheInv s) (h : bread disk s dev blk = Outcome.ok s2 j evs) :
    CacheInv s2 ∧ j < s.bufs.length ∧ s2.bufs.length = s.bufs.length ∧
    (slotOf s2 j).dev = dev ∧ (slotOf s2 j).blockno = blk ∧
    (slotOf s j).lockHeld = false ∧ (slotOf s2 j).lockHeld = true ∧
    (slotOf s2 j).refcnt = (slotOf s j).refcnt + 1 ∧
    (slotOf s2 j).valid = true ∧
    (∀ k, k ≠ j → slotOf s2 k = slotOf s k) := by
  cases hbg : bget s dev blk with
  | ok s1 i evs1 =>
    have h2 : bread disk s dev blk =
        (if (slotOf s1 i).valid = true then Outcome.ok s1 i []
         else Outcome.ok (setSlot s1 i { slotOf s1 i with valid := true, data := disk dev blk })
           i [Ev.transferIn i]) := by
      unfold bread
      rw [hbg]
    rw [h2] at h
    obtain ⟨⟨hInv1, hjlen, hlen1, hblen1, hdev1, hblk1, hfm1, hlkA, hlkB, hrc1, hdat1, hkeep1⟩,
      -, -⟩ := bget_post s dev blk s1 i evs1 hI hbg
    by_cases hval : (slotOf s1 i).valid = true
    · rw [if_pos hval] at h
      simp only [Outcome.ok.injEq] at h
      obtain ⟨hs, hij, -⟩ := h
      subst hs
      subst hij
      exact ⟨hInv1, hjlen, hlen1, hdev1, hblk1, hlkA, hlkB, hrc1, hval, hkeep1⟩
    · rw [if_neg hval] at h
      simp only [Outcome.ok.injEq] at h
      obtain ⟨hs, hij, -⟩ := h
      subst hij
      have hjlen1 : i < s1.bufs.length := by
        rw [hlen1]
        exact hjlen
      have hslot2 : slotOf s2 i = { slotOf s1 i with valid := true, data := disk dev blk } := by
        rw [← hs, slotOf_setSlot_self _ _ _ hjlen1]
      have hkeep2 : ∀ k, k ≠ i → slotOf s2 k = slotOf s1 k := by
        intro k hk
        rw [← hs, slotOf_setSlot_ne _ _ _ _ (Ne.symm hk)]
      refine ⟨?_, hjlen, ?_, ?_, ?_, hlkA, ?_, ?_, ?_, ?_⟩
      · rw [← hs]
        exact cacheInv_validate s1 dev blk i (disk dev blk) hInv1 hjlen1 hfm1 hdev1 hblk1
      · rw [← hs, length_setSlot]
        exact hlen1
      · rw [hslot2]
        exact hdev1
      · rw [hslot2]
        exact hblk1
      · rw [hslot2]
        exact hlkB
      · rw [hslot2]
        exact hrc1
      · rw [hslot2]
      · intro k hk
        rw [hkeep2 k hk]
        exact hkeep1 k hk
  | blocked =>
    have h2 : bread disk s dev blk = Outcome.blocked := by
      unfold bread
      rw [hbg]
    rw [h2] at h
    exact absurd h (by simp)
  | fatal m =>
    have h2 : bread disk s dev blk = Outcome.fatal m := by
      unfold bread
      rw [hbg]
    rw [h2] at h
    exact absurd h (by simp)

theorem brelse_some (s : BCache) (i : Nat) (s2 : BCache) (h : brelse s i = some s2) :
    (slotOf s i).lockHeld = true ∧
    s2 = setSlot s i { slotOf s i with lockHeld := false, refcnt := (slotOf s i).refcnt - 1 } := by
  unfold brelse at h
  by_cases hl : (slotOf s i).lockHeld
  · rw [if_pos hl] at h
    exact ⟨hl, (Option.some.injEq _ _ ▸ h).symm⟩
  · rw [if_neg hl] at h
    exact absurd h (by simp)

theorem bwrite_some (s : BCache) (i : Nat) (s2 : BCache) (evs : List Ev)
    (h : bwrite s i = some (s2, evs)) :
    (slotOf s i).lockHeld = true ∧ s2 = s ∧ evs = [Ev.transferOut i] := by
  unfold bwrite at h
  by_cases hl : (slotOf s i).lockHeld
  · rw [if_pos hl] at h
    simp only [Option.some.injEq, Prod.mk.injEq] at h
    exact ⟨hl, h.1.symm, h.2.symm⟩
  · rw [if_neg hl] at h
    exact absurd h (by simp)

theorem cacheInv_modifyRefLock (s : BCache) (i : Nat) (x : Buf)
    (hdev : x.dev = (slotOf s i).dev) (hblk : x.blockno = (slotOf s i).blockno)
    (hval : x.valid = (slotOf s i).valid)
    (hI : CacheInv s) : CacheInv (setSlot s i x) := by
  apply cacheInv_congr s (setSlot s i x) (buckets_setSlot _ _ _) (length_setSlot _ _ _) _ hI
  intro k
  by_cases hk : k = i
  · subst hk
    by_cases hlen : k < s.bufs.length
    · rw [slotOf_setSlot_self _ _ _ hlen]
      exact ⟨hdev, hblk, hval⟩
    · have hge : s.bufs.length ≤ k := Nat.le_of_not_lt hlen
      have h1 : slotOf (setSlot s k x) k = default := by
        simp only [slotOf, setSlot]
        rw [List.getD_eq_default]
        rw [List.length_set]
        exact hge
      have h2 : slotOf s k = default := by
        simp only [slotOf]
        rw [List.getD_eq_default _ _ hge]
      rw [h1, h2]
      exact ⟨rfl, rfl, rfl⟩
  · rw [slotOf_setSlot_ne _ _ _ _ (Ne.symm hk)]
    exact ⟨rfl, rfl, rfl⟩

theorem reach_cacheInv (s : BCache) (h : Reach s) : CacheInv s := by
  induction h with
  | init n => exact cacheInv_binit n
  | read disk s s' dev blk i evs hr hstep ih =>
    exact (bread_post disk s dev blk s' i evs ih hstep).1
  | write s s' i evs hr hstep ih =>
    rw [(bwrite_some s i s' evs hstep).2.1]
    exact ih
  | release s s' i hr hstep ih =>
    rw [(brelse_some s i s' hstep).2]
    exact cacheInv_modifyRefLock s i _ rfl rfl rfl ih
  | pin s i hr ih =>
    exact cacheInv_modifyRefLock s i _ rfl rfl rfl ih
  | unpin s i hr ih =>
    exact cacheInv_modifyRefLock s i _ rfl rfl rfl ih

/-- C1: in every reachable state of the cache (after initialization, under
any sequence of read/write/release/pin/unpin operations), at most one slot
in the pool is `valid` for a given `(device_id, block_number)` pair. -/
theorem C1_unique_valid_per_key (s : BCache) (h : Reach s) : uniqueValidKey s := by
  intro i hi j hj hvi hvj hdev hblk
  have hI := reach_cacheInv s h
  have h1 := hI.2.2 i hi hvi
  have h2 := hI.2.2 j hj hvj
  rw [hdev, hblk] at h1
  rw [h2] at h1
  exact (Option.some.inj h1).symm

theorem C1_witness : Reach (binit 2) ∧ uniqueValidKey (binit 2) :=
  ⟨Reach.init 2, C1_unique_valid_per_key (binit 2) (Reach.init 2)⟩

/-- C2: in every reachable state (after initialization and after every
completed public operation), every slot is linked in exactly one bucket
list, namely bucket `HASH(block_number) = block_number mod 13` for its
current key; in particular a slot re-keyed by a cross-bucket steal is in
its new home bucket once the operation completes. -/
theorem C2_bucket_membership (s : BCache) (h : Reach s) : bucketConsistent s :=
  (reach_cacheInv s h).1

theorem C2_witness : Reach (binit 3) ∧ bucketConsistent (binit 3) :=
  ⟨Reach.init 3, C2_bucket_membership (binit 3) (Reach.init 3)⟩

/-- C3: on a miss (no slot anywhere matches the requested key) with at
least one free slot, `bget` claims the first slot with `refcnt = 0` in
pool array index order: every earlier slot has nonzero `refcnt`, the
claimed slot had `refcnt = 0`, and it is returned re-keyed with
`valid = false` and `refcnt = 1`, all other slots untouched. -/
theorem C3_claims_first_free (s : BCache) (dev blk j : Nat)
    (hI : CacheInv s)
    (hnom : ∀ k, k < s.bufs.length → ¬((slotOf s k).dev = dev ∧ (slotOf s k).blockno = blk))
    (hff : firstFree s = some j)
    (hlk : (slotOf s j).lockHeld = false) :
    (slotOf s j).refcnt = 0 ∧
    (∀ k, k < j → (slotOf s k).refcnt ≠ 0) ∧
    ∃ s2, bget s dev blk = Outcome.ok s2 j [] ∧
      (slotOf s2 j).dev = dev ∧ (slotOf s2 j).blockno = blk ∧
      (slotOf s2 j).valid = false ∧ (slotOf s2 j).refcnt = 1 ∧
      (∀ k, k ≠ j → slotOf s2 k = slotOf s k) := by
  have hm : findMatch s (HASH blk) dev blk = none := by
    apply (findFirst_eq_none _ _).mpr
    intro x hx
    cases hb : bmatch dev blk (slotOf s x) with
    | false => rfl
    | true =>
      exfalso
      exact hnom x (hI.2.1 (HASH blk) (HASH_lt blk) x hx) ((bmatch_true _ _ _).mp hb)
  obtain ⟨hjlen, hrc0, hmin⟩ := findFreeIdx_some s.bufs j hff
  have hrc0' : (slotOf s j).refcnt = 0 := hrc0
  have hbg0 : bget s dev blk =
      (if HASH (slotOf s j).blockno = HASH blk
       then acquireSleep (claimSlot s j dev blk) j
       else acquireSleep (stealRelink (claimSlot s j dev blk) j (HASH blk)) j) := by
    unfold bget
    rw [hm, hff]
  have hcl : (slotOf (claimSlot s j dev blk) j).lockHeld = false := by
    rw [slotOf_claimSlot_self s j dev blk hjlen]
    exact hlk
  have hok : ∃ s2, bget s dev blk = Outcome.ok s2 j [] := by
    by_cases hEq : HASH (slotOf s j).blockno = HASH blk
    · refine ⟨setSlot (claimSlot s j dev blk) j
        { slotOf (claimSlot s j dev blk) j with lockHeld := true }, ?_⟩
      rw [hbg0, if_pos hEq]
      simp [acquireSleep, hcl]
    · have hcl2 : (slotOf (stealRelink (claimSlot s j dev blk) j (HASH blk)) j).lockHeld = false := by
        rw [stealRelink_slotOf]
        exact hcl
      refine ⟨setSlot (stealRelink (claimSlot s j dev blk) j (HASH blk)) j
        { slotOf (stealRelink (claimSlot s j dev blk) j (HASH blk)) j with lockHeld := true }, ?_⟩
      rw [hbg0, if_neg hEq]
      simp [acquireSleep, hcl2]
  obtain ⟨s2, hbg⟩ := hok
  obtain ⟨⟨-, -, -, -, hdev2, hblk2, -, -, -, hrc2, -, hkeep⟩, -, hvalid⟩ :=
    bget_post s dev blk s2 j [] hI hbg
  have hrc1 : (slotOf s2 j).refcnt = 1 := by
    rw [hrc2, hrc0']
    simp
  exact ⟨hrc0', fun k hk => hmin k hk, s2, hbg, hdev2, hblk2, hvalid hm, hrc1, hkeep⟩

theorem C3_witness :
    (slotOf (binit 2) 0).refcnt = 0 ∧
    (∀ k, k < 0 → (slotOf (binit 2) k).refcnt ≠ 0) ∧
    ∃ s2, bget (binit 2) 1 5 = Outcome.ok s2 0 [] ∧
      (slotOf s2 0).dev = 1 ∧ (slotOf s2 0).blockno = 5 ∧
      (slotOf s2 0).valid = false ∧ (slotOf s2 0).refcnt = 1 ∧
      (∀ k, k ≠ 0 → slotOf s2 k = slotOf (binit 2) k) :=
  C3_claims_first_free (binit 2) 1 5 0 (by decide) (by decide) (by decide) (by decide)

/-- C4: with the invariant and non-negative reference counts, `bget` halts
with the fatal `bget: no buffers` diagnostic exactly when no slot matches
the requested key and every slot of the pool has `refcnt > 0`; in all
other situations it does not halt with that diagnostic. -/
theorem C4_exhaustion (s : BCache) (dev blk : Nat)
    (hI : CacheInv s) (hnn : ∀ k, k < s.bufs.length → 0 ≤ (slotOf s k).refcnt) :
    bget s dev blk = Outcome.fatal PMsg.noBuffers ↔
      ((∀ k, k < s.bufs.length → ¬((slotOf s k).dev = dev ∧ (slotOf s k).blockno = blk)) ∧
       (∀ k, k < s.bufs.length → 0 < (slotOf s k).refcnt)) := by
  constructor
  · intro hfat
    cases hm : findMatch s (HASH blk) dev blk with
    | some i =>
      exfalso
      have hbg : bget s dev blk = acquireSleep (bumpRef s i) i := by
        unfold bget
        rw [hm]
      rw [hbg] at hfat
      unfold acquireSleep at hfat
      by_cases hl : (slotOf (bumpRef s i) i).lockHeld = true
      · rw [if_pos hl] at hfat
        exact absurd hfat (by simp)
      · rw [if_neg hl] at hfat
        exact absurd hfat (by simp)
    | none =>
      cases hf : firstFree s with
      | some j =>
        exfalso
        have hbg : bget s dev blk =
            (if HASH (slotOf s j).blockno = HASH blk
             then acquireSleep (claimSlot s j dev blk) j
             else acquireSleep (stealRelink (claimSlot s j dev blk) j (HASH blk)) j) := by
          unfold bget
          rw [hm, hf]
        rw [hbg] at hfat
        by_cases hEq : HASH (slotOf s j).blockno = HASH blk
        · rw [if_pos hEq] at hfat
          unfold acquireSleep at hfat
          by_cases hl : (slotOf (claimSlot s j dev blk) j).lockHeld = true
          · rw [if_pos hl] at hfat
            exact absurd hfat (by simp)
          · rw [if_neg hl] at hfat
            exact absurd hfat (by simp)
        · rw [if_neg hEq] at hfat
          unfold acquireSleep at hfat
          by_cases hl : (slotOf (stealRelink (claimSlot s j dev blk) j (HASH blk)) j).lockHeld = true
          · rw [if_pos hl] at hfat
            exact absurd hfat (by simp)
          · rw [if_neg hl] at hfat
            exact absurd hfat (by simp)
      | none =>
        constructor
        · intro k hk hkey
          have hmem : k ∈ bucketOf s (HASH blk) := by
            apply cnt_one_mem
            have hc := hI.1.2 k hk (HASH blk) (HASH_lt blk)
            rw [hkey.2, if_pos rfl] at hc
            exact hc
          have hfalse := (findFirst_eq_none _ _).mp hm k hmem
          rw [(bmatch_true dev blk (slotOf s k)).mpr hkey] at hfalse
          exact absurd hfalse (by simp)
        · intro k hk
          have hne := (findFreeIdx_none s.bufs).mp hf k hk
          have hge := hnn k hk
          have hne' : (slotOf s k).refcnt ≠ 0 := hne
          omega
  · intro hx
    have hm : findMatch s (HASH blk) dev blk = none := by
      apply (findFirst_eq_none _ _).mpr
      intro x hxm
      cases hb : bmatch dev blk (slotOf s x) with
      | false => rfl
      | true =>
        exfalso
        exact hx.1 x (hI.2.1 (HASH blk) (HASH_lt blk) x hxm) ((bmatch_true _ _ _).mp hb)
    have hf : firstFree s = none := by
      apply (findFreeIdx_none s.bufs).mpr
      intro k hk
      have := hx.2 k hk
      intro hc
      have hc' : (slotOf s k).refcnt = 0 := hc
      omega
    unfold bget
    rw [hm, hf]

theorem C4_witness :
    bget exhaustS 0 1 = Outcome.fatal PMsg.noBuffers ↔
      ((∀ k, k < exhaustS.bufs.length →
        ¬((slotOf exhaustS k).dev = 0 ∧ (slotOf exhaustS k).blockno = 1)) ∧
       (∀ k, k < exhaustS.bufs.length → 0 < (slotOf exhaustS k).refcnt)) :=
  C4_exhaustion exhaustS 0 1 (by decide) (by decide)

/-- C5 counterexample: in the reachable state `binit 2`, slot 0 carries
identity `(0, 0)` and is present in its home bucket's list, yet
`bread 0 0` returns slot 1 (the first match in list order), and slot 0's
`refcnt` is not incremented — so the claim as stated (the lookup returns
exactly the slot hypothesized present) is false when several slots carry
the same identity. -/
theorem C5_cex :
    bmatch 0 0 (slotOf (binit 2) 0) = true ∧
    (0 : Nat) ∈ bucketOf (binit 2) (HASH 0) ∧
    retIdx (bread diskZero (binit 2) 0 0) = some 1 ∧
    (retState (bread diskZero (binit 2) 0 0)).map (fun s2 => (slotOf s2 0).refcnt) = some 0 := by
  decide

/-- C5 amended: if slot `i` is the slot the hit scan finds for the
requested key (the first match in its home bucket's list — in particular
the unique match, and, by the first-match invariant, always the valid
slot for that key) and its sleep lock is free, then `read` returns exactly
slot `i` with `refcnt` incremented by one; when the slot is valid no disk
transfer happens and its identity, valid flag, payload and the bucket
lists are unchanged; every other slot is unchanged in any case. -/
theorem C5_hit_first_match (disk : Nat → Nat → List Nat) (s : BCache) (dev blk i : Nat)
    (hI : CacheInv s)
    (hm : findMatch s (HASH blk) dev blk = some i)
    (hlk : (slotOf s i).lockHeld = false) :
    ∃ s2 evs, bread disk s dev blk = Outcome.ok s2 i evs ∧
      s2.buckets = s.buckets ∧
      (slotOf s2 i).refcnt = (slotOf s i).refcnt + 1 ∧
      (slotOf s2 i).dev = (slotOf s i).dev ∧
      (slotOf s2 i).blockno = (slotOf s i).blockno ∧
      (∀ k, k ≠ i → slotOf s2 k = slotOf s k) ∧
      ((slotOf s i).valid = true →
        evs = [] ∧ (slotOf s2 i).valid = true ∧ (slotOf s2 i).data = (slotOf s i).data) ∧
      ((slotOf s i).valid = false → evs = [Ev.transferIn i]) := by
  have hm' : findFirst (fun x => bmatch dev blk (slotOf s x)) (bucketOf s (HASH blk)) = some i := hm
  have hilen : i < s.bufs.length := hI.2.1 (HASH blk) (HASH_lt blk) i (findFirst_mem _ _ _ hm').1
  have hlkb : (slotOf (bumpRef s i) i).lockHeld = false := by
    rw [slotOf_bumpRef_self s i hilen]
    exact hlk
  have hA : acquireSleep (bumpRef s i) i =
      Outcome.ok (setSlot (bumpRef s i) i { slotOf (bumpRef s i) i with lockHeld := true }) i [] := by
    simp [acquireSleep, hlkb]
  obtain ⟨⟨hInv1, -, hlen1, -, hdev1, hblk1, -, -, hlkB, hrc1, hdat1, hkeep1⟩, -, hval1, hbk1⟩ :=
    bget_hit_post s dev blk _ i [] hI hm hA
  set s1 := setSlot (bumpRef s i) i { slotOf (bumpRef s i) i with lockHeld := true } with hs1
  have hbg : bget s dev blk = Outcome.ok s1 i [] := by
    unfold bget
    rw [hm]
    exact hA
  have hrd0 : bread disk s dev blk =
      (if (slotOf s1 i).valid = true then Outcome.ok s1 i []
       else Outcome.ok (setSlot s1 i { slotOf s1 i with valid := true, data := disk dev blk })
         i [Ev.transferIn i]) := by
    unfold bread
    rw [hbg]
  have hkey := (bmatch_true dev blk (slotOf s i)).mp (findFirst_mem _ _ _ hm').2
  by_cases hval : (slotOf s i).valid = true
  · have hval1' : (slotOf s1 i).valid = true := by
      rw [hval1]
      exact hval
    have hrd : bread disk s dev blk = Outcome.ok s1 i [] := by
      rw [hrd0, if_pos hval1']
    refine ⟨s1, [], hrd, hbk1, hrc1, ?_, ?_, hkeep1, fun _ => ⟨rfl, hval1', hdat1⟩, ?_⟩
    · rw [hdev1, hkey.1]
    · rw [hblk1, hkey.2]
    · intro hc
      rw [hval] at hc
      exact absurd hc (by simp)
  · have hvf : (slotOf s i).valid = false := by
      cases hv2 : (slotOf s i).valid with
      | false => rfl
      | true => exact absurd hv2 hval
    have hval1' : ¬ (slotOf s1 i).valid = true := by
      rw [hval1, hvf]
      simp
    have hilen1 : i < s1.bufs.length := by
      rw [hlen1]
      exact hilen
    have hrd : bread disk s dev blk =
        Outcome.ok (setSlot s1 i { slotOf s1 i with valid := true, data := disk dev blk })
          i [Ev.transferIn i] := by
      rw [hrd0, if_neg hval1']
    have hslot2 : slotOf (setSlot s1 i { slotOf s1 i with valid := true, data := disk dev blk }) i =
        { slotOf s1 i with valid := true, data := disk dev blk } :=
      slotOf_setSlot_self _ _ _ hilen1
    refine ⟨_, [Ev.transferIn i], hrd, ?_, ?_, ?_, ?_, ?_, ?_, fun _ => rfl⟩
    · rw [buckets_setSlot]
      exact hbk1
    · rw [hslot2]
      exact hrc1
    · rw [hslot2, hdev1, hkey.1]
    · rw [hslot2, hblk1, hkey.2]
    · intro k hk
      rw [slotOf_setSlot_ne _ _ _ _ (Ne.symm hk)]
      exact hkeep1 k hk
    · intro hc
      rw [hvf] at hc
      exact absurd hc (by simp)

theorem C5_witness :
    ∃ s2 evs, bread diskZero (binit 1) 0 0 = Outcome.ok s2 0 evs ∧
      s2.buckets = (binit 1).buckets ∧
      (slotOf s2 0).refcnt = (slotOf (binit 1) 0).refcnt + 1 ∧
      (slotOf s2 0).dev = (slotOf (binit 1) 0).dev ∧
      (slotOf s2 0).blockno = (slotOf (binit 1) 0).blockno ∧
      (∀ k, k ≠ 0 → slotOf s2 k = slotOf (binit 1) k) ∧
      ((slotOf (binit 1) 0).valid = true →
        evs = [] ∧ (slotOf s2 0).valid = true ∧ (slotOf s2 0).data = (slotOf (binit 1) 0).data) ∧
      ((slotOf (binit 1) 0).valid = false → evs = [Ev.transferIn 0]) :=
  C5_hit_first_match diskZero (binit 1) 0 0 0 (by decide) (by decide) (by decide)

/-- C6: `bwrite` and `brelse` each halt with their fatal diagnostic
(modelled by `none`) exactly when the caller does not hold the slot's
sleep lock; when the lock is held, `bwrite` performs the transfer-out with
the cache unchanged, and `brelse` releases the lock and then decrements
`refcnt` (the bucket lock taken for the decrement is
`bcache.lock[HASH(blockno)]`, invisible in the sequential embedding),
touching nothing else. -/
theorem C6_write_release_protocol (s : BCache) (i : Nat) :
    ((bwrite s i = none) ↔ (slotOf s i).lockHeld = false) ∧
    ((brelse s i = none) ↔ (slotOf s i).lockHeld = false) ∧
    ((slotOf s i).lockHeld = true →
      bwrite s i = some (s, [Ev.transferOut i]) ∧
      ∃ s2, brelse s i = some s2 ∧ (slotOf s2 i).lockHeld = false ∧
        (slotOf s2 i).refcnt = (slotOf s i).refcnt - 1 ∧ s2.buckets = s.buckets ∧
        ∀ k, k ≠ i → slotOf s2 k = slotOf s k) := by
  by_cases hl : (slotOf s i).lockHeld = true
  · have hlne : ¬ (slotOf s i).lockHeld = false := by
      rw [hl]
      simp
    have hi : i < s.bufs.length := by
      by_contra hc
      have hd : slotOf s i = default := by
        simp only [slotOf]
        rw [List.getD_eq_default _ _ (Nat.le_of_not_lt hc)]
      rw [hd] at hl
      exact absurd hl (by decide)
    refine ⟨?_, ?_, ?_⟩
    · simp [bwrite, hl, hlne]
    · simp [brelse, hl, hlne]
    · intro _
      refine ⟨by simp [bwrite, hl], ?_⟩
      refine ⟨setSlot s i { slotOf s i with lockHeld := false, refcnt := (slotOf s i).refcnt - 1 },
        by simp [brelse, hl], ?_, ?_, buckets_setSlot _ _ _, ?_⟩
      · rw [slotOf_setSlot_self _ _ _ hi]
      · rw [slotOf_setSlot_self _ _ _ hi]
      · intro k hk
        exact slotOf_setSlot_ne _ _ _ _ (Ne.symm hk)
  · have hl2 : (slotOf s i).lockHeld = false := by
      cases hv : (slotOf s i).lockHeld with
      | false => rfl
      | true => exact absurd hv hl
    refine ⟨?_, ?_, fun hc => absurd hc hl⟩
    · simp [bwrite, hl2]
    · simp [brelse, hl2]

theorem C6_witness :
    bwrite heldS 0 = some (heldS, [Ev.transferOut 0]) ∧
    ∃ s2, brelse heldS 0 = some s2 ∧ (slotOf s2 0).lockHeld = false ∧
      (slotOf s2 0).refcnt = (slotOf heldS 0).refcnt - 1 ∧ s2.buckets = heldS.buckets ∧
      ∀ k, k ≠ 0 → slotOf s2 k = slotOf heldS k :=
  (C6_write_release_protocol heldS 0).2.2 (by decide)

/-- C7 counterexample: in the reachable state `binit 2`, the request
`(dev 1, block 0)` misses (no slot matches) and claims free slot 0, which
already belongs to the home bucket; the home bucket's list still has
slot 1 at its front afterwards, so the claimed slot is not at the front of
the home bucket's list when the operation completes. -/
theorem C7_cex :
    findMatch (binit 2) (HASH 0) 1 0 = none ∧
    retIdx (bget (binit 2) 1 0) = some 0 ∧
    (retState (bget (binit 2) 1 0)).map (fun s2 => (bucketOf s2 (HASH 0)).head?) =
      some (some 1) := by
  decide

/-- C7 amended: on a miss, a slot stolen from a different bucket is placed
at the front of the home bucket's list; but a free slot claimed inside the
home bucket keeps its list position (the bucket lists are unchanged). -/
theorem C7_front_position (s : BCache) (dev blk : Nat) (s2 : BCache) (j : Nat) (evs : List Ev)
    (hI : CacheInv s)
    (hm : findMatch s (HASH blk) dev blk = none)
    (hbg : bget s dev blk = Outcome.ok s2 j evs) :
    (HASH (slotOf s j).blockno ≠ HASH blk → (bucketOf s2 (HASH blk)).head? = some j) ∧
    (HASH (slotOf s j).blockno = HASH blk → s2.buckets = s.buckets) := by
  rcases bget_cases s dev blk s2 j evs hbg with ⟨hm2, hA⟩ | ⟨hm2, hf, hEq, hA⟩ | ⟨hm2, hf, hNe, hA⟩
  · rw [hm] at hm2
    exact absurd hm2 (by simp)
  · obtain ⟨-, -, -, hbuckets, -⟩ := bget_same_post s dev blk s2 j evs hI hm2 hf hEq hA
    exact ⟨fun hne => absurd hEq hne, fun _ => hbuckets⟩
  · obtain ⟨-, -, -, hhome, -, -⟩ := bget_steal_post s dev blk s2 j evs hI hm2 hf hNe hA
    refine ⟨fun _ => ?_, fun hEq => absurd hEq hNe⟩
    rw [hhome]
    rfl

theorem C7_witness :
    (HASH (slotOf (binit 2) 0).blockno ≠ HASH 1 → (bucketOf c7S2 (HASH 1)).head? = some 0) ∧
    (HASH (slotOf (binit 2) 0).blockno = HASH 1 → c7S2.buckets = (binit 2).buckets) :=
  C7_front_position (binit 2) 0 1 c7S2 0 [] (by decide) (by decide) (by decide)

/-- C10: `bwrite` on a slot whose sleep lock is held leaves the entire
cache state unchanged — the very same state is returned — and its only
effect is the transfer-out of that slot's payload. -/
theorem C10_bwrite_frame (s : BCache) (i : Nat) (h : (slotOf s i).lockHeld = true) :
    bwrite s i = some (s, [Ev.transferOut i]) := by
  simp [bwrite, h]

theorem C10_witness : bwrite heldS 0 = some (heldS, [Ev.transferOut 0]) :=
  C10_bwrite_frame heldS 0 (by decide)

theorem length_bpin (s : BCache) (i : Nat) : (bpin s i).bufs.length = s.bufs.length :=
  length_setSlot _ _ _

theorem buckets_bpin (s : BCache) (i : Nat) : (bpin s i).buckets = s.buckets := rfl

theorem slotOf_bpin_self (s : BCache) (i : Nat) (h : i < s.bufs.length) :
    slotOf (bpin s i) i = { slotOf s i with refcnt := (slotOf s i).refcnt + 1 } :=
  slotOf_setSlot_self _ _ _ h

theorem slotOf_bpin_ne (s : BCache) (i k : Nat) (h : i ≠ k) :
    slotOf (bpin s i) k = slotOf s k := slotOf_setSlot_ne _ _ _ _ h

theorem length_bunpin (s : BCache) (i : Nat) : (bunpin s i).bufs.length = s.bufs.length :=
  length_setSlot _ _ _

theorem slotOf_bunpin_self (s : BCache) (i : Nat) (h : i < s.bufs.length) :
    slotOf (bunpin s i) i = { slotOf s i with refcnt := (slotOf s i).refcnt - 1 } :=
  slotOf_setSlot_self _ _ _ h

theorem slotOf_bunpin_ne (s : BCache) (i k : Nat) (h : i ≠ k) :
    slotOf (bunpin s i) k = slotOf s k := slotOf_setSlot_ne _ _ _ _ h

theorem runTraceAux_snoc (disk : Nat → Nat → List Nat) (st : BCache × List Int × List Int)
    (t : List Op) (op : Op) :
    runTraceAux disk st (t ++ [op]) =
      match runTraceAux disk st t with
      | some st2 => traceStep disk st2 op
      | none => none := by
  induction t generalizing st with
  | nil =>
    show runTraceAux disk st [op] = traceStep disk st op
    cases h : traceStep disk st op with
    | some st2 => simp [runTraceAux, h]
    | none => simp [runTraceAux, h]
  | cons o t2 ih =>
    show runTraceAux disk st (o :: (t2 ++ [op])) = _
    cases h : traceStep disk st o with
    | some st2 =>
      have h1 : runTraceAux disk st (o :: (t2 ++ [op])) = runTraceAux disk st2 (t2 ++ [op]) := by
        simp [runTraceAux, h]
      have h2 : runTraceAux disk st (o :: t2) = runTraceAux disk st2 t2 := by
        simp [runTraceAux, h]
      rw [h1, h2, ih st2]
    | none =>
      have h1 : runTraceAux disk st (o :: (t2 ++ [op])) = none := by
        simp [runTraceAux, h]
      have h2 : runTraceAux disk st (o :: t2) = none := by
        simp [runTraceAux, h]
      rw [h1, h2]

theorem pinCount_snoc (t : List Op) (op : Op) (i : Nat) :
    pinCount (t ++ [op]) i = pinStep i (pinCount t i) op := by
  simp [pinCount, List.foldl_append]

theorem mem_pres (q t : List Op) : q ∈ pres t ↔ ∃ r, q ++ r = t := by
  induction t generalizing q with
  | nil =>
    simp only [pres, List.mem_singleton]
    constructor
    · intro h
      subst h
      exact ⟨[], rfl⟩
    · intro h
      obtain ⟨r, hr⟩ := h
      cases q with
      | nil => rfl
      | cons a b => simp at hr
  | cons x t2 ih =>
    simp only [pres, List.mem_cons, List.mem_map]
    constructor
    · intro h
      rcases h with h | ⟨p, hp, hxp⟩
      · subst h
        exact ⟨x :: t2, rfl⟩
      · subst hxp
        obtain ⟨r, hr⟩ := (ih p).mp hp
        exact ⟨r, by rw [List.cons_append, hr]⟩
    · intro h
      obtain ⟨r, hr⟩ := h
      cases q with
      | nil => exact Or.inl rfl
      | cons y q2 =>
        simp only [List.cons_append, List.cons.injEq] at hr
        exact Or.inr ⟨q2, (ih q2).mpr ⟨r, hr.2⟩, by rw [hr.1]⟩

theorem traceStep_read_eq (disk : Nat → Nat → List Nat) (s0 : BCache) (led0 pled0 : List Int)
    (dev blk : Nat) (s2 : BCache) (i : Nat) (evs : List Ev)
    (h : bread disk s0 dev blk = Outcome.ok s2 i evs) :
    traceStep disk (s0, led0, pled0) (Op.read dev blk) =
      some (s2, led0.set i (led0.getD i 0 + 1), pled0) := by
  simp only [traceStep]
  rw [h]


theorem runTrace_good (disk : Nat → Nat → List Nat) (n : Nat) :
    ∀ p : List Op, (∀ q, q ∈ pres p → ∀ i, i < n → 0 ≤ pinCount q i) →
    ∀ s led pled, runTrace disk n p = some (s, led, pled) →
      Reach s ∧ s.bufs.length = n ∧ led.length = n ∧ pled.length = n ∧
      ∀ i, i < n →
        ((slotOf s i).refcnt = led.getD i 0 + pled.getD i 0 ∧
         pled.getD i 0 = pinCount p i ∧
         led.getD i 0 = (if (slotOf s i).lockHeld = true then 1 else 0) ∧
         0 ≤ (slotOf s i).refcnt) := by
  intro p
  induction p using List.reverseRecOn with
  | nil =>
    intro hbal s led pled hrun
    have hrun' : some ((binit n : BCache), (List.replicate n (0 : Int) : List Int),
        (List.replicate n (0 : Int) : List Int)) = some (s, led, pled) := hrun
    simp only [Option.some.injEq, Prod.mk.injEq] at hrun'
    obtain ⟨hs, hled, hpled⟩ := hrun'
    subst hs
    subst hled
    subst hpled
    refine ⟨Reach.init n, binit_bufs_length n, List.length_replicate _ _,
      List.length_replicate _ _, ?_⟩
    intro i hi
    rw [slotOf_binit n i hi]
    refine ⟨?_, ?_, ?_, ?_⟩ <;> simp [lgetD_replicate, hi, pinCount]
  | append_singleton t op ih =>
    intro hbal s led pled hrun
    have hbal_t : ∀ q, q ∈ pres t → ∀ i, i < n → 0 ≤ pinCount q i := by
      intro q hq i hi
      apply hbal q _ i hi
      obtain ⟨r, hr⟩ := (mem_pres q t).mp hq
      exact (mem_pres q (t ++ [op])).mpr ⟨r ++ [op], by rw [← List.append_assoc, hr]⟩
    have hbal_last : ∀ i, i < n → 0 ≤ pinCount (t ++ [op]) i := fun i hi =>
      hbal _ ((mem_pres _ _).mpr ⟨[], List.append_nil _⟩) i hi
    have hbal_self : ∀ i, i < n → 0 ≤ pinCount t i := fun i hi =>
      hbal_t t ((mem_pres _ _).mpr ⟨[], List.append_nil _⟩) i hi
    have hrun2 : (match runTraceAux disk (binit n, List.replicate n 0, List.replicate n 0) t with
        | some st2 => traceStep disk st2 op
        | none => none) = some (s, led, pled) := by
      rw [← runTraceAux_snoc]
      exact hrun
    cases hmid : runTraceAux disk (binit n, List.replicate n 0, List.replicate n 0) t with
    | none =>
      rw [hmid] at hrun2
      exact absurd hrun2 (by simp)
    | some st0 =>
      rw [hmid] at hrun2
      rcases st0 with ⟨s0, led0, pled0⟩
      have hstep : traceStep disk (s0, led0, pled0) op = some (s, led, pled) := hrun2
      obtain ⟨hreach0, hsl0, hll0, hpl0, hinv0⟩ := ih hbal_t s0 led0 pled0 hmid
      cases op with
      | read dev blk =>
        cases hbr : bread disk s0 dev blk with
        | ok s2 i2 evs2 =>
          rw [traceStep_read_eq disk s0 led0 pled0 dev blk s2 i2 evs2 hbr] at hstep
          simp only [Option.some.injEq, Prod.mk.injEq] at hstep
          obtain ⟨hs, hled, hpled⟩ := hstep
          subst hs
          subst hled
          subst hpled
          obtain ⟨hInv2, hi2len, hlen2, -, -, hlkA, hlkB, hrc2, -, hkeep2⟩ :=
            bread_post disk s0 dev blk s2 i2 evs2 (reach_cacheInv s0 hreach0) hbr
          refine ⟨Reach.read disk s0 s2 dev blk i2 evs2 hreach0 hbr,
            by rw [hlen2, hsl0], by rw [List.length_set]; exact hll0, hpl0, ?_⟩
          intro k hk
          obtain ⟨ha, hb, hc, hd⟩ := hinv0 k hk
          by_cases hki : k = i2
          · subst hki
            have hledk : (led0.set k (led0.getD k 0 + 1)).getD k 0 = led0.getD k 0 + 1 :=
              lgetD_set_self _ _ _ _ (by rw [hll0]; exact hk)
            have hl0 : led0.getD k 0 = 0 := by
              rw [hc, hlkA]
              simp
            have hpc : pinCount (t ++ [Op.read dev blk]) k = pinCount t k := by
              rw [pinCount_snoc]
              rfl
            refine ⟨?_, ?_, ?_, ?_⟩
            · rw [hrc2, ha, hledk]
              ring
            · rw [hpc]
              exact hb
            · rw [hledk, hl0, hlkB]
              simp
            · rw [hrc2, ha, hl0, hb]
              have := hbal_self k hk
              omega
          · have hsk : slotOf s2 k = slotOf s0 k := hkeep2 k hki
            have hledk : (led0.set i2 (led0.getD i2 0 + 1)).getD k 0 = led0.getD k 0 :=
              lgetD_set_ne _ i2 k _ _ (fun hc2 => hki hc2.symm)
            have hpc : pinCount (t ++ [Op.read dev blk]) k = pinCount t k := by
              rw [pinCount_snoc]
              rfl
            exact ⟨by rw [hsk, hledk]; exact ha, by rw [hpc]; exact hb,
              by rw [hsk, hledk]; exact hc, by rw [hsk]; exact hd⟩
        | blocked =>
          have heq : traceStep disk (s0, led0, pled0) (Op.read dev blk) = none := by
            simp only [traceStep]
            rw [hbr]
          rw [heq] at hstep
          exact absurd hstep (by simp)
        | fatal m =>
          have heq : traceStep disk (s0, led0, pled0) (Op.read dev blk) = none := by
            simp only [traceStep]
            rw [hbr]
          rw [heq] at hstep
          exact absurd hstep (by simp)
      | release i =>
        by_cases hi : i < s0.bufs.length
        · cases hbrl : brelse s0 i with
          | some s2 =>
            have heq : traceStep disk (s0, led0, pled0) (Op.release i) =
                some (s2, led0.set i (led0.getD i 0 - 1), pled0) := by
              simp only [traceStep]
              rw [if_pos hi, hbrl]
            rw [heq] at hstep
            simp only [Option.some.injEq, Prod.mk.injEq] at hstep
            obtain ⟨hs, hled, hpled⟩ := hstep
            subst hs
            subst hled
            subst hpled
            obtain ⟨hlkT, hs2eq⟩ := brelse_some s0 i s2 hbrl
            have hslot2 : slotOf s2 i = { slotOf s0 i with lockHeld := false, refcnt := (slotOf s0 i).refcnt - 1 } := by
              rw [hs2eq]
              exact slotOf_setSlot_self _ _ _ hi
            have hkeep2 : ∀ k, k ≠ i → slotOf s2 k = slotOf s0 k := by
              intro k hk
              rw [hs2eq]
              exact slotOf_setSlot_ne _ _ _ _ (Ne.symm hk)
            have hlen2 : s2.bufs.length = s0.bufs.length := by
              rw [hs2eq]
              exact length_setSlot _ _ _
            refine ⟨Reach.release s0 s2 i hreach0 hbrl, by rw [hlen2, hsl0],
              by rw [List.length_set]; exact hll0, hpl0, ?_⟩
            intro k hk
            obtain ⟨ha, hb, hc, hd⟩ := hinv0 k hk
            have hpc : pinCount (t ++ [Op.release i]) k = pinCount t k := by
              rw [pinCount_snoc]
              rfl
            by_cases hki : k = i
            · subst hki
              have hledk : (led0.set k (led0.getD k 0 - 1)).getD k 0 = led0.getD k 0 - 1 :=
                lgetD_set_self _ _ _ _ (by rw [hll0]; exact hk)
              have hl1 : led0.getD k 0 = 1 := by
                rw [hc, hlkT]
                simp
              have hrck : (slotOf s2 k).refcnt = (slotOf s0 k).refcnt - 1 := by
                rw [hslot2]
              have hlkk : (slotOf s2 k).lockHeld = false := by
                rw [hslot2]
              refine ⟨?_, ?_, ?_, ?_⟩
              · rw [hrck, ha, hledk]
                ring
              · rw [hpc]
                exact hb
              · rw [hledk, hl1, hlkk]
                simp
              · rw [hrck, ha, hl1, hb]
                have := hbal_self k hk
                omega
            · have hsk : slotOf s2 k = slotOf s0 k := hkeep2 k hki
              have hledk : (led0.set i (led0.getD i 0 - 1)).getD k 0 = led0.getD k 0 :=
                lgetD_set_ne _ i k _ _ (fun hc2 => hki hc2.symm)
              exact ⟨by rw [hsk, hledk]; exact ha, by rw [hpc]; exact hb,
                by rw [hsk, hledk]; exact hc, by rw [hsk]; exact hd⟩
          | none =>
            have heq : traceStep disk (s0, led0, pled0) (Op.release i) = none := by
              simp only [traceStep]
              rw [if_pos hi, hbrl]
            rw [heq] at hstep
            exact absurd hstep (by simp)
        · have heq : traceStep disk (s0, led0, pled0) (Op.release i) = none := by
            simp only [traceStep]
            rw [if_neg hi]
          rw [heq] at hstep
          exact absurd hstep (by simp)
      | pin i =>
        by_cases hi : i < s0.bufs.length
        · have heq : traceStep disk (s0, led0, pled0) (Op.pin i) =
              some (bpin s0 i, led0, pled0.set i (pled0.getD i 0 + 1)) := by
            simp only [traceStep]
            rw [if_pos hi]
          rw [heq] at hstep
          simp only [Option.some.injEq, Prod.mk.injEq] at hstep
          obtain ⟨hs, hled, hpled⟩ := hstep
          subst hs
          subst hled
          subst hpled
          refine ⟨Reach.pin s0 i hreach0, by rw [length_bpin, hsl0], hll0,
            by rw [List.length_set]; exact hpl0, ?_⟩
          intro k hk
          obtain ⟨ha, hb, hc, hd⟩ := hinv0 k hk
          by_cases hki : k = i
          · subst hki
            have hsk : slotOf (bpin s0 k) k = { slotOf s0 k with refcnt := (slotOf s0 k).refcnt + 1 } :=
              slotOf_bpin_self s0 k hi
            have hpledk : (pled0.set k (pled0.getD k 0 + 1)).getD k 0 = pled0.getD k 0 + 1 :=
              lgetD_set_self _ _ _ _ (by rw [hpl0]; exact hk)
            have hpc : pinCount (t ++ [Op.pin k]) k = pinCount t k + 1 := by
              rw [pinCount_snoc]
              simp [pinStep]
            have hled_nn : 0 ≤ led0.getD k 0 := by
              rw [hc]
              split <;> simp
            refine ⟨?_, ?_, ?_, ?_⟩
            · rw [hsk]
              show (slotOf s0 k).refcnt + 1 = _
              rw [ha, hpledk]
              ring
            · rw [hpledk, hpc, hb]
            · rw [hsk]
              show led0.getD k 0 = _
              rw [hc]
            · rw [hsk]
              show 0 ≤ (slotOf s0 k).refcnt + 1
              rw [ha, hb]
              have := hbal_self k hk
              omega
          · have hsk : slotOf (bpin s0 i) k = slotOf s0 k :=
              slotOf_bpin_ne s0 i k (fun hc2 => hki hc2.symm)
            have hpledk : (pled0.set i (pled0.getD i 0 + 1)).getD k 0 = pled0.getD k 0 :=
              lgetD_set_ne _ i k _ _ (fun hc2 => hki hc2.symm)
            have hik : ¬ i = k := fun hc2 => hki hc2.symm
            have hpc : pinCount (t ++ [Op.pin i]) k = pinCount t k := by
              rw [pinCount_snoc]
              simp [pinStep, hik]
            exact ⟨by rw [hsk, hpledk]; exact ha, by rw [hpledk, hpc]; exact hb,
              by rw [hsk]; exact hc, by rw [hsk]; exact hd⟩
        · have heq : traceStep disk (s0, led0, pled0) (Op.pin i) = none := by
            simp only [traceStep]
            rw [if_neg hi]
          rw [heq] at hstep
          exact absurd hstep (by simp)
      | unpin i =>
        by_cases hi : i < s0.bufs.length
        · have heq : traceStep disk (s0, led0, pled0) (Op.unpin i) =
              some (bunpin s0 i, led0, pled0.set i (pled0.getD i 0 - 1)) := by
            simp only [traceStep]
            rw [if_pos hi]
          rw [heq] at hstep
          simp only [Option.some.injEq, Prod.mk.injEq] at hstep
          obtain ⟨hs, hled, hpled⟩ := hstep
          subst hs
          subst hled
          subst hpled
          refine ⟨Reach.unpin s0 i hreach0, by rw [length_bunpin, hsl0], hll0,
            by rw [List.length_set]; exact hpl0, ?_⟩
          intro k hk
          obtain ⟨ha, hb, hc, hd⟩ := hinv0 k hk
          by_cases hki : k = i
          · subst hki
            have hsk : slotOf (bunpin s0 k) k = { slotOf s0 k with refcnt := (slotOf s0 k).refcnt - 1 } :=
              slotOf_bunpin_self s0 k hi
            have hpledk : (pled0.set k (pled0.getD k 0 - 1)).getD k 0 = pled0.getD k 0 - 1 :=
              lgetD_set_self _ _ _ _ (by rw [hpl0]; exact hk)
            have hpc : pinCount (t ++ [Op.unpin k]) k = pinCount t k - 1 := by
              rw [pinCount_snoc]
              simp [pinStep]
            have hled_nn : 0 ≤ led0.getD k 0 := by
              rw [hc]
              split <;> simp
            have hlast := hbal_last k hk
            rw [hpc] at hlast
            refine ⟨?_, ?_, ?_, ?_⟩
            · rw [hsk]
              show (slotOf s0 k).refcnt - 1 = _
              rw [ha, hpledk]
              ring
            · rw [hpledk, hpc, hb]
            · rw [hsk]
              show led0.getD k 0 = _
              rw [hc]
            · rw [hsk]
              show 0 ≤ (slotOf s0 k).refcnt - 1
              rw [ha, hb]
              omega
          · have hsk : slotOf (bunpin s0 i) k = slotOf s0 k :=
              slotOf_bunpin_ne s0 i k (fun hc2 => hki hc2.symm)
            have hpledk : (pled0.set i (pled0.getD i 0 - 1)).getD k 0 = pled0.getD k 0 :=
              lgetD_set_ne _ i k _ _ (fun hc2 => hki hc2.symm)
            have hik : ¬ i = k := fun hc2 => hki hc2.symm
            have hpc : pinCount (t ++ [Op.unpin i]) k = pinCount t k := by
              rw [pinCount_snoc]
              simp [pinStep, hik]
            exact ⟨by rw [hsk, hpledk]; exact ha, by rw [hpledk, hpc]; exact hb,
              by rw [hsk]; exact hc, by rw [hsk]; exact hd⟩
        · have heq : traceStep disk (s0, led0, pled0) (Op.unpin i) = none := by
            simp only [traceStep]
            rw [if_neg hi]
          rw [heq] at hstep
          exact absurd hstep (by simp)

/-- C8: for every trace of public operations whose pins are matched (every
leading segment has unpins of a slot at most its pins — implied by pairing
each pin with a later unpin; releases are matched automatically because an
unmatched release panics and a double read of a held slot blocks), at
every point of the trace every slot's `refcnt` is non-negative and equals
the number of currently outstanding holds: the ledger `led` of unreleased
reads that returned the slot plus the ledger `pled` of unmatched pins. -/
theorem C8_reference_accounting (disk : Nat → Nat → List Nat) (n : Nat) (t : List Op)
    (hbal : ∀ q, q ∈ pres t → ∀ i, i < n → 0 ≤ pinCount q i) :
    ∀ p, p ∈ pres t → ∀ s led pled, runTrace disk n p = some (s, led, pled) →
      ∀ i, i < n →
        (slotOf s i).refcnt = led.getD i 0 + pled.getD i 0 ∧
        pled.getD i 0 = pinCount p i ∧
        led.getD i 0 = (if (slotOf s i).lockHeld = true then 1 else 0) ∧
        0 ≤ (slotOf s i).refcnt := by
  intro p hp s led pled hrun i hi
  obtain ⟨r2, hr2⟩ := (mem_pres p t).mp hp
  have hsub : ∀ q, q ∈ pres p → q ∈ pres t := by
    intro q hq
    obtain ⟨r, hr⟩ := (mem_pres q p).mp hq
    exact (mem_pres q t).mpr ⟨r ++ r2, by rw [← List.append_assoc, hr, hr2]⟩
  exact (runTrace_good disk n p (fun q hq => hbal q (hsub q hq)) s led pled hrun).2.2.2.2 i hi

theorem C8_witness :
    (slotOf c8S 0).refcnt = [(1 : Int)].getD 0 0 + [(1 : Int)].getD 0 0 ∧
    [(1 : Int)].getD 0 0 = pinCount [Op.read 0 0, Op.pin 0] 0 ∧
    [(1 : Int)].getD 0 0 = (if (slotOf c8S 0).lockHeld = true then 1 else 0) ∧
    0 ≤ (slotOf c8S 0).refcnt :=
  C8_reference_accounting diskZero 1 [Op.read 0 0, Op.pin 0] (by decide)
    [Op.read 0 0, Op.pin 0] (by decide) c8S [1] [1] (by decide) 0 (by decide)

theorem stepThread_mem_succs (c : LConf) (t : Nat) (c2 : LConf)
    (h : stepThread c t = some c2) : c2 ∈ succs c := by
  have ht : t < c.progs.length := by
    by_contra hc
    have hnil : c.progs.getD t [] = [] := List.getD_eq_default _ _ (Nat.le_of_not_lt hc)
    unfold stepThread at h
    rw [hnil] at h
    exact absurd h (by simp)
  exact List.mem_filterMap.mpr ⟨t, List.mem_range.mpr ht, h⟩

theorem stepsTo_mem (S : List LConf) (hclosed : ∀ c ∈ S, ∀ c2 ∈ succs c, c2 ∈ S) :
    ∀ (tr : List Nat) (c c2 : LConf), c ∈ S → stepsTo c tr = some c2 → c2 ∈ S := by
  intro tr
  induction tr with
  | nil =>
    intro c c2 hc h
    have h2 : some c = some c2 := h
    rw [← Option.some.inj h2]
    exact hc
  | cons t rest ih =>
    intro c c2 hc h
    cases hst : stepThread c t with
    | some cm =>
      have h2 : stepsTo cm rest = some c2 := by
        have he : stepsTo c (t :: rest) = stepsTo cm rest := by
          simp [stepsTo, hst]
        rw [← he]
        exact h
      exact ih cm c2 (hclosed c hc cm (stepThread_mem_succs c t cm hst)) h2
    | none =>
      have he : stepsTo c (t :: rest) = none := by
        simp [stepsTo, hst]
      rw [he] at h
      exact absurd h (by simp)

/-- C9 counterexample: an interleaving of two concurrent `bget` misses
requiring cross-bucket stealing that deadlocks.  Thread 0 (home bucket 0,
donor 2) takes `lock[0]`; thread 1 (home bucket 1, donor 0) takes
`lock[1]` and the global `master` lock; now thread 0 waits for `master`
(held by thread 1) and thread 1 waits for `lock[0]` (held by thread 0):
the reached configuration is stuck but not finished, so not every
interleaving terminates. -/
theorem C9_cross_steal_deadlock :
    stepsTo crossConf [0, 1, 1] = some deadConf ∧
    lstuck deadConf = true ∧ lfinished deadConf = false := by
  decide

/-- C9 amended: deadlock is possible when a thread's donor bucket is
another thread's held home bucket (see the counterexample); but every
interleaving of two concurrent misses with the same home bucket — where
the home bucket lock serializes the two miss paths — terminates: every
stuck configuration reachable from `sameHomeConf` has both lock programs
of `bget`'s miss path run to completion. -/
theorem C9_same_home_no_deadlock (tr : List Nat) (c : LConf)
    (h : stepsTo sameHomeConf tr = some c) (hstuck : lstuck c = true) :
    lfinished c = true := by
  have hmem : c ∈ reachSet sameHomeConf :=
    stepsTo_mem (reachSet sameHomeConf) (by decide) tr sameHomeConf c (by decide) h
  have hall : ∀ c2 ∈ reachSet sameHomeConf, lstuck c2 = true → lfinished c2 = true := by decide
  exact hall c hmem hstuck

theorem C9_witness : lfinished doneConf = true :=
  C9_same_home_no_deadlock [0, 0, 0, 0, 0, 0, 1, 1, 1, 1, 1, 1] doneConf (by decide) (by decide)
